import Mathlib

/-!
Shallow embedding of the bulk task scheduler of the rushstack monorepo build
orchestrator: the task collection (`TaskCollection.ts`), the project builder
(`ProjectBuilder.ts`) and the task selector (`TaskSelector.ts`), together with
proofs of the key functional-correctness properties of the spec.
-/

namespace RushStack

/-- A task registered in a `TaskCollection`: the task name (the project's
package name), the name sets of its dependencies and dependents (JS `Set`
objects, modelled as insertion-ordered duplicate-free lists of task names),
and the memoized critical-path length (JS `undefined` modelled as `none`). -/
structure Task where
  name : String
  dependencies : List String
  dependents : List String
  criticalPathLength : Option Nat
deriving Repr, DecidableEq

/-- A `TaskCollection`: the `Map<string, Task>` of registered tasks, modelled
as a list of tasks in insertion order (names are unique by construction, since
`addTask` refuses duplicates). -/
abbrev TaskCollection := List Task

/-- `this._tasks.get(name)`. -/
def findTask (tc : TaskCollection) (name : String) : Option Task :=
  tc.find? (fun t => t.name == name)

/-- `TaskCollection.hasTask`. -/
def hasTask (tc : TaskCollection) (name : String) : Bool :=
  (findTask tc name).isSome

/-- The dependent name set of the task registered under `name` (empty when the
name is not registered; in the source the lookup cannot fail because tasks are
traversed as objects). -/
def dependentsOf (tc : TaskCollection) (name : String) : List String :=
  ((findTask tc name).map Task.dependents).getD []

/-- The dependency name set of the task registered under `name`. -/
def dependenciesOf (tc : TaskCollection) (name : String) : List String :=
  ((findTask tc name).map Task.dependencies).getD []

/-- Errors thrown by the `TaskCollection` mutators.  The source throws
`Error` objects with human-readable messages; only the error kind matters to
the claims, so the messages are carried structurally. -/
inductive TaskCollectionError where
  | duplicateTask (name : String)
  | unregisteredTask (name : String)
  | unregisteredDependency (name : String)
deriving Repr, DecidableEq

/-- `TaskCollection.addTask`: throws if a task with that name has already been
registered, otherwise inserts a fresh task with
`criticalPathLength = undefined`.  The JS method mutates the map in place, so
the model returns the resulting collection together with the thrown error, if
any. -/
def addTask (tc : TaskCollection) (name : String) :
    TaskCollection × Option TaskCollectionError :=
  if hasTask tc name then (tc, some (.duplicateTask name))
  else (tc ++ [{ name := name, dependencies := [], dependents := [],
                 criticalPathLength := none }], none)

/-- JS `Set.prototype.add`: appends the element unless it is already
present. -/
def setAdd (l : List String) (x : String) : List String :=
  if x ∈ l then l else l ++ [x]

/-- The per-task effect of one `addDependencies` loop iteration:
`task.dependencies.add(dependency)` touches the task named `taskName` and
`dependency.dependents.add(task)` touches the task named `depName`. -/
def linkTask (taskName depName : String) (t : Task) : Task :=
  { t with
    dependencies :=
      if t.name = taskName then setAdd t.dependencies depName else t.dependencies,
    dependents :=
      if t.name = depName then setAdd t.dependents taskName else t.dependents }

/-- One iteration of the `addDependencies` loop body, as a whole-collection
update (the source mutates the two task objects in place). -/
def linkDependency (tc : TaskCollection) (taskName depName : String) :
    TaskCollection :=
  tc.map (linkTask taskName depName)

/-- `deps.foldl` of `linkDependency`: the state after linking a list of
dependency names onto `taskName`. -/
def linkAll (tc : TaskCollection) (taskName : String) (deps : List String) :
    TaskCollection :=
  deps.foldl (fun acc d => linkDependency acc taskName d) tc

/-- The `for (const dependencyName of taskDependencies)` loop of
`TaskCollection.addDependencies`: links dependencies one by one until an
unregistered dependency name is hit, at which point the error is thrown with
the earlier links already applied (the source mutates in place). -/
def addDependenciesLoop (taskName : String) :
    TaskCollection → List String → TaskCollection × Option TaskCollectionError
  | tc, [] => (tc, none)
  | tc, d :: rest =>
    if hasTask tc d then addDependenciesLoop taskName (linkDependency tc taskName d) rest
    else (tc, some (.unregisteredDependency d))

/-- `TaskCollection.addDependencies`. -/
def addDependencies (tc : TaskCollection) (taskName : String)
    (taskDependencies : List String) : TaskCollection × Option TaskCollectionError :=
  if hasTask tc taskName then addDependenciesLoop taskName tc taskDependencies
  else (tc, some (.unregisteredTask taskName))

/-- The message of the error thrown by `_checkForCyclicDependencies`:
the dependency chain (with the revisited task appended) is reversed and
joined. -/
def cyclicErrorMessage (dependencyChain : List String) (taskName : String) : String :=
  "A cyclic dependency was encountered:\n  " ++
    String.intercalate "\n  -> " ((dependencyChain ++ [taskName]).reverse) ++
    "\nConsider using the cyclicDependencyProjects option for rush.json."

/-- Results of the cycle check.  `outOfFuel` is an artifact of embedding the
unbounded JS recursion with explicit fuel; it is proved unreachable for
well-formed collections when the fuel is at least the number of tasks plus
one. -/
inductive CheckError where
  | cyclic (message : String)
  | outOfFuel
deriving Repr, DecidableEq

/-- The `for (const task of tasks)` loop of `_checkForCyclicDependencies`:
`descend` performs the recursive descent into a fresh task's dependents (it
is instantiated below with the checker at one unit less fuel). -/
def checkCyclicLoop
    (descend : String → List String → List String → Except CheckError (List String)) :
    List String → List String → List String → Except CheckError (List String)
  | [], _, alreadyChecked => .ok alreadyChecked
  | t :: rest, dependencyChain, alreadyChecked =>
    if t ∈ dependencyChain then
      .error (.cyclic (cyclicErrorMessage dependencyChain t))
    else if t ∈ alreadyChecked then
      checkCyclicLoop descend rest dependencyChain alreadyChecked
    else
      match descend t dependencyChain alreadyChecked with
      | .error e => .error e
      | .ok checked => checkCyclicLoop descend rest dependencyChain checked

/-- `TaskCollection._checkForCyclicDependencies`: depth-first traversal of the
dependent relation, carrying the active `dependencyChain` and the shared
`alreadyCheckedProjects` set (threaded through and returned).  The source
recurses without bound; the model consumes one unit of fuel per descent into a
task's dependents, which is proved to never run out for well-formed
collections when the fuel exceeds the number of registered tasks. -/
def checkForCyclicDependencies (tc : TaskCollection) :
    Nat → List String → List String → List String → Except CheckError (List String)
  | 0 => checkCyclicLoop fun _ _ _ => .error .outOfFuel
  | f + 1 => checkCyclicLoop fun t dependencyChain alreadyChecked =>
      checkForCyclicDependencies tc f (dependentsOf tc t)
        (dependencyChain ++ [t]) (t :: alreadyChecked)

/-- The `task.dependents.forEach((dep) => depsLengths.push(...))` loop:
collects the critical-path lengths of all dependents, where `f` computes one
dependent's length. -/
def criticalPathsOfList (f : String → Option Nat) : List String → Option (List Nat)
  | [] => some []
  | d :: rest =>
    match f d, criticalPathsOfList f rest with
    | some n, some ns => some (n :: ns)
    | _, _ => none

/-- `TaskCollection._calculateCriticalPaths`: `0` for a task without
dependents, otherwise one plus the maximum of the dependents' critical-path
lengths.  The memoization of the source only caches values of this recursion,
so the model recomputes them; fuel bounds the recursion depth. -/
def calculateCriticalPaths (tc : TaskCollection) : Nat → String → Option Nat
  | 0, _ => none
  | fuel + 1, name =>
    let deps := dependentsOf tc name
    if deps.isEmpty then some 0
    else
      match criticalPathsOfList (calculateCriticalPaths tc fuel) deps with
      | none => none
      | some lengths => some (lengths.foldl Nat.max 0 + 1)

/-- The sort key passed to `Sort.sortBy` by `getOrderedTasks`:
`-task.criticalPathLength!` (the non-null assertion is modelled with
`Option.getD`; after the critical paths are calculated the field is always
`some`). -/
def taskSortKey (t : Task) : Int :=
  -((t.criticalPathLength.getD 0 : Nat) : Int)

/-- `Sort.sortBy` from `@rushstack/node-core-library`: `array.sort` comparing
the selected keys with `Sort.compareByValue`.  ECMAScript requires
`Array.prototype.sort` to be stable, which Mathlib's insertion sort is. -/
def sortByKey (key : Task → Int) (l : List Task) : List Task :=
  l.insertionSort (fun a b => key a ≤ key b)

/-- The `this._tasks.forEach((task) => this._calculateCriticalPaths(task))`
pass: every task's `criticalPathLength` field is filled in. -/
def annotateCriticalPaths (tc : TaskCollection) : List Task :=
  tc.map fun t =>
    { t with criticalPathLength := calculateCriticalPaths tc (tc.length + 1) t.name }

/-- `TaskCollection.getOrderedTasks`: checks for cycles, annotates every task
with its critical-path length, and returns the tasks sorted ascending by
`-criticalPathLength`. -/
def getOrderedTasks (tc : TaskCollection) : Except CheckError (List Task) :=
  match checkForCyclicDependencies tc (tc.length + 1) (tc.map Task.name) [] [] with
  | .error e => .error e
  | .ok _ => .ok (sortByKey taskSortKey (annotateCriticalPaths tc))

/-- The dependent-graph edge relation of a collection: `y` is a registered
dependent of `x`. -/
def depEdge (tc : TaskCollection) (x y : String) : Prop :=
  y ∈ dependentsOf tc x

instance (tc : TaskCollection) (x y : String) : Decidable (depEdge tc x y) := by
  unfold depEdge; infer_instance

/-- The collection's dependent graph has a (nonempty) cycle. -/
def Cyclic (tc : TaskCollection) : Prop :=
  ∃ v, Relation.TransGen (depEdge tc) v v

/-- Well-formedness maintained by `addTask`/`addDependencies`: every recorded
dependent name is itself a registered task name. -/
def WellFormed (tc : TaskCollection) : Prop :=
  ∀ t ∈ tc, ∀ d ∈ t.dependents, d ∈ tc.map Task.name

instance (tc : TaskCollection) : Decidable (WellFormed tc) := by
  unfold WellFormed
  infer_instance

/-- The registered task names, in registration order. -/
def namesOf (tc : TaskCollection) : List String :=
  tc.map Task.name

/-- The number of distinct registered names not yet in the checked set: the
termination measure of the depth-first traversal. -/
def uncheckedCount (tc : TaskCollection) (checked : List String) : Nat :=
  ((namesOf tc).dedup.filter fun n => decide (n ∉ checked)).length

/-- No node reachable from `v` lies on a cycle of the dependent graph. -/
def CycleFree (tc : TaskCollection) (v : String) : Prop :=
  ∀ w, Relation.ReflTransGen (depEdge tc) v w → ¬Relation.TransGen (depEdge tc) w w

/-- A task that has been fully explored by the traversal: checked and no
longer on the active chain. -/
def Black (checked chain : List String) (v : String) : Prop :=
  v ∈ checked ∧ v ∉ chain


/-- The critical-path length stored on a task, with the source's non-null
assertion modelled by a default of `0`. -/
def cplValue (t : Task) : Nat :=
  t.criticalPathLength.getD 0

/-- The critical-path length recorded for the named task in an ordered task
list (`0` when absent, which the theorems rule out). -/
def cplOfName (ts : List Task) (name : String) : Nat :=
  ((ts.find? fun t => t.name == name).bind Task.criticalPathLength).getD 0

/-- The ordering property asserted by the spec's tie-break sentence: strictly
descending critical-path length, with ties broken by lexicographically
smaller task name first.  (`String.instLT` is exactly the lexicographic order
on the underlying character lists, spelled out here so the predicate stays
kernel-computable.) -/
def nameTieBreakOrdered (ts : List Task) : Prop :=
  ts.Pairwise fun a b =>
    cplValue b < cplValue a ∨ (cplValue a = cplValue b ∧ a.name.data < b.name.data)

instance (ts : List Task) : Decidable (nameTieBreakOrdered ts) := by
  unfold nameTieBreakOrdered
  infer_instance

-- Concrete collections for the spec's end-to-end scenarios, built through
-- the collection operations themselves.

/-- The collection of the spec's cycle scenario: `A` depends on `B` and `B`
depends on `A`. -/
def abTC : TaskCollection :=
  let tc1 := (addTask [] "A").1
  let tc2 := (addTask tc1 "B").1
  let tc3 := (addDependencies tc2 "A" ["B"]).1
  (addDependencies tc3 "B" ["A"]).1

/-- The collection of the spec's linear-chain scenario: `B` depends on `A`
and `C` depends on `B`. -/
def chainTC : TaskCollection :=
  let tc1 := (addTask [] "A").1
  let tc2 := (addTask tc1 "B").1
  let tc3 := (addTask tc2 "C").1
  let tc4 := (addDependencies tc3 "B" ["A"]).1
  (addDependencies tc4 "C" ["B"]).1

/-- The ordered output of `getOrderedTasks chainTC`. -/
def chainOut : List Task :=
  [{ name := "A", dependencies := [], dependents := ["B"], criticalPathLength := some 2 },
   { name := "B", dependencies := ["A"], dependents := ["C"], criticalPathLength := some 1 },
   { name := "C", dependencies := ["B"], dependents := [], criticalPathLength := some 0 }]

/-- Two independent tasks registered in the order `b`, `a`: a critical-path
tie whose registration order disagrees with lexicographic name order. -/
def tieTC : TaskCollection :=
  let tc1 := (addTask [] "b").1
  (addTask tc1 "a").1

/-- The ordered output of `getOrderedTasks tieTC`: the tie is left in
registration order. -/
def tieOut : List Task :=
  [{ name := "b", dependencies := [], dependents := [], criticalPathLength := some 0 },
   { name := "a", dependencies := [], dependents := [], criticalPathLength := some 0 }]

/-- Two registered tasks `x`, `y` with no links yet. -/
def xyTC : TaskCollection :=
  let tc1 := (addTask [] "x").1
  (addTask tc1 "y").1

/-!
### ProjectBuilder

`ProjectBuilder._executeTaskAsync` is a straight-line decision procedure once
its collaborators (file system, change analyzer, build cache, child process)
are abstracted into an environment of observed results; the model below
threads that environment through the exact branch structure of the source.
-/

/-- `TaskStatus.ts`: the possible task states. -/
inductive TaskStatus where
  | ready
  | executing
  | success
  | successWithWarning
  | skipped
  | fromCache
  | failure
  | blocked
deriving Repr, DecidableEq

/-- `IProjectBuildDeps`: the persisted per-project build state — the
file-path → content-hash map (a JSON object, modelled as a key-value list)
and the exact command string. -/
structure ProjectBuildDeps where
  files : List (String × String)
  arguments : String
deriving Repr, DecidableEq

/-- JSON-object key lookup on the modelled file-hash map. -/
def lookupFile (files : List (String × String)) (key : String) : Option String :=
  (files.find? fun kv => kv.1 == key).map Prod.snd

/-- `_areShallowEqual`: every key of the first object is present in the second
with an identical value, and every key of the second is present in the
first. -/
def areShallowEqual (object1 object2 : List (String × String)) : Bool :=
  (object1.all fun kv => lookupFile object2 kv.1 == some kv.2) &&
    (object2.all fun kv => (lookupFile object1 kv.1).isSome)

/-- The abstracted collaborators of one `ProjectBuilder._executeTaskAsync`
run: each field records what the corresponding external call would observe or
return. -/
structure ExecEnv where
  /-- `this._commandToRun`. -/
  commandToRun : String
  /-- `this.isIncrementalBuildAllowed`. -/
  isIncrementalBuildAllowed : Bool
  /-- `this._buildCacheConfiguration` is defined. -/
  buildCacheConfigured : Bool
  /-- `RushProjectConfiguration.tryLoadForProjectAsync` found a project
  build-cache configuration. -/
  projectConfigPresent : Bool
  /-- `FileSystem.exists(currentDepsPath)`. -/
  depsFileExists : Bool
  /-- `JsonFile.load(currentDepsPath)` result; `none` models a parse error
  (caught, a warning line is written, and the state is treated as absent). -/
  depsFileContents : Option ProjectBuildDeps
  /-- `this._packageChangeAnalyzer.getPackageDeps(...)` result; `none` models
  the analyzer throwing. -/
  analyzerFiles : Option (List (String × String))
  /-- `projectBuildCache.tryRestoreFromCacheAsync` result, when a cache
  object exists. -/
  cacheRestoreSuccess : Bool
  /-- The spawned command's exit code. -/
  exitCode : Int
  /-- The spawned command wrote at least one chunk to stderr
  (`hasWarningOrError` in the source). -/
  stderrChunkSeen : Bool
  /-- `projectBuildCache.trySetCacheEntryAsync` result, when a cache object
  exists. -/
  cacheWriteSuccess : Bool
deriving Repr, DecidableEq

deriving instance DecidableEq for Except

/-- The observable outcome of one `_executeTaskAsync` run: the returned
status (or thrown `TaskError` message), and which external effects
happened. -/
structure ExecOutcome where
  result : Except String TaskStatus
  spawnedProcess : Bool
  wroteStateFile : Bool
  attemptedCacheWrite : Bool
  deletedStateFile : Bool
deriving Repr, DecidableEq

/-- `lastProjectBuildDeps`: the prior build state, loaded only when the state
file exists and parses. -/
def lastProjectBuildDeps (env : ExecEnv) : Option ProjectBuildDeps :=
  if env.depsFileExists then env.depsFileContents else none

/-- The `terminal.writeWarningLine` issued when the state file exists but
fails to parse — the only warning-severity write of `_executeTaskAsync`
itself, which later makes `terminalProvider.hasWarnings` true. -/
def parseWarningIssued (env : ExecEnv) : Bool :=
  env.depsFileExists && env.depsFileContents.isNone

/-- `projectBuildDeps`: the current build state assembled from the change
analyzer's file-hash map and the command string (`undefined` when the
analyzer throws). -/
def currentProjectBuildDeps (env : ExecEnv) : Option ProjectBuildDeps :=
  env.analyzerFiles.map fun files => { files := files, arguments := env.commandToRun }

/-- `isPackageUnchanged`: both states exist, the command strings are equal and
the file-hash maps are shallow-equal. -/
def isPackageUnchanged (env : ExecEnv) : Bool :=
  match lastProjectBuildDeps env, currentProjectBuildDeps env with
  | some last, some current =>
    (current.arguments == last.arguments) && areShallowEqual current.files last.files
  | _, _ => false

/-- Modelled from the spec: `ProjectBuildCache.tryGetProjectBuildCache` is not
among the sources.  Per the spec a cache object exists only when a build-cache
configuration and a project configuration are present, and
`AnalyzerUnavailable` "degrades the task to always-run + uncacheable", so no
cache object is produced when the tracked-file list is unavailable. -/
def projectBuildCacheAvailable (env : ExecEnv) : Bool :=
  env.buildCacheConfigured && env.projectConfigPresent && env.analyzerFiles.isSome

/-- `restoreFromCacheSuccess`: the optional-chained
`projectBuildCache?.tryRestoreFromCacheAsync(...)`, with JS truthiness
(`undefined` when no cache object exists is falsy). -/
def restoreFromCacheSuccess (env : ExecEnv) : Bool :=
  projectBuildCacheAvailable env && env.cacheRestoreSuccess

/-- `ProjectBuilder._executeTaskAsync`.  Notes on fidelity: a non-zero exit
code rejects the status promise with a `TaskError`, which propagates out as a
thrown error (`Except.error`); `terminalProvider.hasErrors` can only be set by
error-severity terminal writes, of which the modelled control flow performs
none, so the `Failure` override of the source is unreachable here. -/
def executeTask (env : ExecEnv) : ExecOutcome :=
  if restoreFromCacheSuccess env then
    { result := .ok .fromCache, spawnedProcess := false, wroteStateFile := false,
      attemptedCacheWrite := false, deletedStateFile := false }
  else if isPackageUnchanged env && env.isIncrementalBuildAllowed then
    { result := .ok .skipped, spawnedProcess := false, wroteStateFile := false,
      attemptedCacheWrite := false, deletedStateFile := false }
  else if env.commandToRun = "" then
    -- the state files are deleted, then deps are written (when available)
    -- and Success is returned without spawning a process
    { result := .ok .success, spawnedProcess := false,
      wroteStateFile := (currentProjectBuildDeps env).isSome,
      attemptedCacheWrite := false, deletedStateFile := true }
  else if env.exitCode ≠ 0 then
    { result := .error ("Returned error code: " ++ toString env.exitCode),
      spawnedProcess := true, wroteStateFile := false,
      attemptedCacheWrite := false, deletedStateFile := true }
  else if env.stderrChunkSeen then
    -- the promise resolves SuccessWithWarning, so the `status === Success`
    -- write-back block is skipped
    { result := .ok .successWithWarning, spawnedProcess := true,
      wroteStateFile := false, attemptedCacheWrite := false, deletedStateFile := true }
  else if (currentProjectBuildDeps env).isSome then
    -- write the state file and try the cache write in parallel, then
    -- downgrade to SuccessWithWarning on cache-write failure or a warning
    { result := .ok (if (projectBuildCacheAvailable env && !env.cacheWriteSuccess)
          || parseWarningIssued env then .successWithWarning else .success),
      spawnedProcess := true, wroteStateFile := true,
      attemptedCacheWrite := projectBuildCacheAvailable env, deletedStateFile := true }
  else
    { result := .ok .success, spawnedProcess := true, wroteStateFile := false,
      attemptedCacheWrite := false, deletedStateFile := true }

-- Concrete environments for the ProjectBuilder claims.

/-- A run with a prior state identical to the current state and no cache. -/
def envSkip : ExecEnv :=
  { commandToRun := "gulp build", isIncrementalBuildAllowed := true,
    buildCacheConfigured := false, projectConfigPresent := false,
    depsFileExists := true,
    depsFileContents := some { files := [("src/a.ts", "h1")], arguments := "gulp build" },
    analyzerFiles := some [("src/a.ts", "h1")],
    cacheRestoreSuccess := false, exitCode := 0, stderrChunkSeen := false,
    cacheWriteSuccess := true }

/-- A run where the configured build cache restores successfully. -/
def envRestore : ExecEnv :=
  { commandToRun := "gulp build", isIncrementalBuildAllowed := true,
    buildCacheConfigured := true, projectConfigPresent := true,
    depsFileExists := false, depsFileContents := none,
    analyzerFiles := some [("src/a.ts", "h1")],
    cacheRestoreSuccess := true, exitCode := 0, stderrChunkSeen := false,
    cacheWriteSuccess := true }

/-- A run whose prior state file exists but fails to parse, with a clean
zero-exit command and no cache. -/
def envParseWarn : ExecEnv :=
  { commandToRun := "gulp build", isIncrementalBuildAllowed := true,
    buildCacheConfigured := false, projectConfigPresent := false,
    depsFileExists := true, depsFileContents := none,
    analyzerFiles := some [("src/a.ts", "h1")],
    cacheRestoreSuccess := false, exitCode := 0, stderrChunkSeen := false,
    cacheWriteSuccess := true }

/-- An empty-command project whose prior state matches the current state. -/
def envEmptyUnchanged : ExecEnv :=
  { commandToRun := "", isIncrementalBuildAllowed := true,
    buildCacheConfigured := false, projectConfigPresent := false,
    depsFileExists := true,
    depsFileContents := some { files := [("src/a.ts", "h1")], arguments := "" },
    analyzerFiles := some [("src/a.ts", "h1")],
    cacheRestoreSuccess := false, exitCode := 0, stderrChunkSeen := false,
    cacheWriteSuccess := true }

/-- An empty-command project with no prior state. -/
def envEmptyFresh : ExecEnv :=
  { commandToRun := "", isIncrementalBuildAllowed := true,
    buildCacheConfigured := false, projectConfigPresent := false,
    depsFileExists := false, depsFileContents := none,
    analyzerFiles := some [("src/a.ts", "h1")],
    cacheRestoreSuccess := false, exitCode := 0, stderrChunkSeen := false,
    cacheWriteSuccess := true }

/-- A run where the change analyzer throws, with everything else healthy and
a build cache configured. -/
def envAnalyzerDown : ExecEnv :=
  { commandToRun := "gulp build", isIncrementalBuildAllowed := true,
    buildCacheConfigured := true, projectConfigPresent := true,
    depsFileExists := true,
    depsFileContents := some { files := [("src/a.ts", "h1")], arguments := "gulp build" },
    analyzerFiles := none,
    cacheRestoreSuccess := true, exitCode := 0, stderrChunkSeen := false,
    cacheWriteSuccess := true }

/-!
### TaskSelector

`TaskSelector.registerTasks` walks the project graph from the `--to` and
`--from` roots and registers a `ProjectBuilder` task per reached project.
-/

/-- The slice of `RushConfigurationProject` the selector consumes: the package
name, the local dependency edges, and whether the requested script is defined
in the project's `package.json` `scripts` block. -/
structure RushProject where
  packageName : String
  localDependencyProjects : List String
  hasScript : Bool
deriving Repr, DecidableEq

/-- The selector's constructor options that matter to task registration. -/
structure SelectorOptions where
  projects : List RushProject
  toProjects : List String
  fromProjects : List String
  ignoreMissingScript : Bool
  ignoreDependencyOrder : Bool
deriving Repr, DecidableEq

/-- Looks a project up by package name. -/
def lookupProject (cfg : List RushProject) (name : String) : Option RushProject :=
  cfg.find? fun p => p.packageName == name

/-- The local dependency edges of a named project. -/
def localDepsOf (cfg : List RushProject) (name : String) : List String :=
  ((lookupProject cfg name).map RushProject.localDependencyProjects).getD []

/-- `TaskSelector._getDependentGraph` read off for one project: the projects
that list `name` among their local dependencies, in configuration order. -/
def dependentProjectsOf (cfg : List RushProject) (name : String) : List String :=
  (cfg.filter fun q => name ∈ q.localDependencyProjects).map RushProject.packageName

/-- The worklist loop shared by the two collectors: each unvisited name is
appended to the result map and `descend` collects its neighbourhood. -/
def collectClosureLoop (descend : String → List String → Option (List String)) :
    List String → List String → Option (List String)
  | [], result => some result
  | p :: rest, result =>
    if p ∈ result then collectClosureLoop descend rest result
    else
      match descend p result with
      | none => none
      | some r => collectClosureLoop descend rest r

/-- The generic depth-first collection shared by
`TaskSelector._collectAllDependencies` and
`TaskSelector._collectAllDependents`: each unvisited name is appended to the
result map and its neighbours are collected recursively.  The source recurses
without bound; the model consumes one unit of fuel per descent (`none` =
out of fuel, proved unreachable with fuel ≥ number of projects + 1). -/
def collectClosure (nbr : String → List String) :
    Nat → List String → List String → Option (List String)
  | 0 => collectClosureLoop fun _ _ => none
  | f + 1 => collectClosureLoop fun p result =>
      collectClosure nbr f (nbr p) (result ++ [p])

/-- Errors surfaced by `registerTasks`. -/
inductive SelectorError where
  | missingScript (name : String)
  | taskCollection (e : TaskCollectionError)
  | outOfFuel
deriving Repr, DecidableEq

/-- `TaskSelector._registerTask`: skip missing or already-registered
projects, fail when the requested script is undefined and missing scripts are
not ignored, otherwise add a task named after the project. -/
def registerTask (opts : SelectorOptions) (tc : TaskCollection) (name : String) :
    Except SelectorError TaskCollection :=
  match lookupProject opts.projects name with
  | none => .ok tc
  | some proj =>
    if hasTask tc name then .ok tc
    else if !proj.hasScript && !opts.ignoreMissingScript then .error (.missingScript name)
    else
      match addTask tc name with
      | (tc2, none) => .ok tc2
      | (_, some e) => .error (.taskCollection e)

/-- Registers each collected project in order. -/
def registerTaskList (opts : SelectorOptions) :
    TaskCollection → List String → Except SelectorError TaskCollection
  | tc, [] => .ok tc
  | tc, n :: rest =>
    match registerTask opts tc n with
    | .error e => .error e
    | .ok tc2 => registerTaskList opts tc2 rest

/-- Adds the given dependency lists task by task, surfacing the first
`addDependencies` error. -/
def addDependenciesList :
    TaskCollection → List (String × List String) → Except SelectorError TaskCollection
  | tc, [] => .ok tc
  | tc, (n, deps) :: rest =>
    match addDependencies tc n deps with
    | (tc2, none) => addDependenciesList tc2 rest
    | (_, some e) => .error (.taskCollection e)

/-- `TaskSelector._registerToProjects`: collect the transitive local
dependencies of the `--to` projects, register them, then (unless dependency
order is ignored) add each one's full local dependency list. -/
def registerToProjects (opts : SelectorOptions) (tc : TaskCollection) :
    Except SelectorError TaskCollection :=
  match collectClosure (localDepsOf opts.projects) (opts.projects.length + 1)
      opts.toProjects [] with
  | none => .error .outOfFuel
  | some dependencies =>
    match registerTaskList opts tc dependencies with
    | .error e => .error e
    | .ok tc2 =>
      if opts.ignoreDependencyOrder then .ok tc2
      else addDependenciesList tc2
        (dependencies.map fun d => (d, localDepsOf opts.projects d))

/-- `TaskSelector._registerFromProjects`: collect the transitive dependents
of the `--from` projects over the reversed edge relation, register them, then
(unless dependency order is ignored) add each one's local dependencies
filtered to the collected dependents. -/
def registerFromProjects (opts : SelectorOptions) (tc : TaskCollection) :
    Except SelectorError TaskCollection :=
  match collectClosure (dependentProjectsOf opts.projects) (opts.projects.length + 1)
      opts.fromProjects [] with
  | none => .error .outOfFuel
  | some dependents =>
    match registerTaskList opts tc dependents with
    | .error e => .error e
    | .ok tc2 =>
      if opts.ignoreDependencyOrder then .ok tc2
      else addDependenciesList tc2
        (dependents.map fun d =>
          (d, (localDepsOf opts.projects d).filter (· ∈ dependents)))

/-- `TaskSelector._registerAll`: register every project of the configuration
and (unless dependency order is ignored) every local dependency edge. -/
def registerAll (opts : SelectorOptions) (tc : TaskCollection) :
    Except SelectorError TaskCollection :=
  match registerTaskList opts tc (opts.projects.map RushProject.packageName) with
  | .error e => .error e
  | .ok tc2 =>
    if opts.ignoreDependencyOrder then .ok tc2
    else addDependenciesList tc2
      (opts.projects.map fun p => (p.packageName, p.localDependencyProjects))

/-- `TaskSelector.registerTasks`: the `--to` closure when present, then the
`--from` closure when present, then everything when both are absent. -/
def registerTasks (opts : SelectorOptions) : Except SelectorError TaskCollection :=
  match (if opts.toProjects.isEmpty then .ok [] else registerToProjects opts []) with
  | .error e => .error e
  | .ok tc1 =>
    match (if opts.fromProjects.isEmpty then .ok tc1 else registerFromProjects opts tc1) with
    | .error e => .error e
    | .ok tc2 =>
      if opts.toProjects.isEmpty && opts.fromProjects.isEmpty then registerAll opts tc2
      else .ok tc2

/-- The project-graph dependency edge: `y` is a local dependency of `x`. -/
def projDepEdge (cfg : List RushProject) (x y : String) : Prop :=
  y ∈ localDepsOf cfg x

/-- The reversed project-graph edge: `y` is a dependent of `x` (i.e. `y`
lists `x` among its local dependencies). -/
def projDependentEdge (cfg : List RushProject) (x y : String) : Prop :=
  y ∈ dependentProjectsOf cfg x

instance (cfg : List RushProject) (x y : String) : Decidable (projDepEdge cfg x y) := by
  unfold projDepEdge; infer_instance

instance (cfg : List RushProject) (x y : String) : Decidable (projDependentEdge cfg x y) := by
  unfold projDependentEdge; infer_instance

/-- Well-formedness of a project configuration: every local dependency edge
points at a configured project. -/
def ConfigWellFormed (cfg : List RushProject) : Prop :=
  ∀ p ∈ cfg, ∀ d ∈ p.localDependencyProjects, d ∈ cfg.map RushProject.packageName

instance (cfg : List RushProject) : Decidable (ConfigWellFormed cfg) := by
  unfold ConfigWellFormed
  infer_instance

/-- The number of distinct universe names not yet collected: the termination
measure of the worklist collectors. -/
def unvisitedCount (names result : List String) : Nat :=
  (names.dedup.filter fun n => decide (n ∉ result)).length

/-- A concrete project graph: `c` depends on `b`, `b` depends on `a`, and `d`
is isolated. -/
def sampleProjects : List RushProject :=
  [{ packageName := "a", localDependencyProjects := [], hasScript := true },
   { packageName := "b", localDependencyProjects := ["a"], hasScript := true },
   { packageName := "c", localDependencyProjects := ["b"], hasScript := true },
   { packageName := "d", localDependencyProjects := [], hasScript := true }]

/-- Selector options selecting `--to b` on the sample graph. -/
def sampleToOptions : SelectorOptions :=
  { projects := sampleProjects, toProjects := ["b"], fromProjects := [],
    ignoreMissingScript := false, ignoreDependencyOrder := false }

/-- Selector options selecting `--from b` on the sample graph. -/
def sampleFromOptions : SelectorOptions :=
  { projects := sampleProjects, toProjects := [], fromProjects := ["b"],
    ignoreMissingScript := false, ignoreDependencyOrder := false }

/-- Selector options selecting `--to c --from a` on the sample graph. -/
def sampleBothOptions : SelectorOptions :=
  { projects := sampleProjects, toProjects := ["c"], fromProjects := ["a"],
    ignoreMissingScript := false, ignoreDependencyOrder := false }

/-!
## Lemmas about the `TaskCollection` mutators
-/

theorem mem_setAdd {l : List String} {x y : String} :
    y ∈ setAdd l x ↔ y ∈ l ∨ y = x := by
  unfold setAdd
  split
  · next h => exact ⟨fun hy => Or.inl hy, fun hy => hy.elim id fun e => e ▸ h⟩
  · simp [or_comm]

@[simp] theorem linkTask_dependencies (a b : String) (t : Task) :
    (linkTask a b t).dependencies =
      if t.name = a then setAdd t.dependencies b else t.dependencies := rfl

@[simp] theorem linkTask_dependents (a b : String) (t : Task) :
    (linkTask a b t).dependents =
      if t.name = b then setAdd t.dependents a else t.dependents := rfl

theorem mem_setAdd_self {l : List String} {x : String} : x ∈ setAdd l x :=
  mem_setAdd.mpr (Or.inr rfl)

theorem mem_setAdd_of_mem {l : List String} {x y : String} (h : y ∈ l) :
    y ∈ setAdd l x :=
  mem_setAdd.mpr (Or.inl h)

@[simp] theorem linkTask_name (a b : String) (t : Task) :
    (linkTask a b t).name = t.name := rfl

theorem findTask_linkDependency (tc : TaskCollection) (a b n : String) :
    findTask (linkDependency tc a b) n = (findTask tc n).map (linkTask a b) := by
  unfold findTask linkDependency
  rw [List.find?_map]
  rfl

theorem findTask_name {tc : TaskCollection} {n : String} {t : Task}
    (h : findTask tc n = some t) : t.name = n := by
  have := List.find?_some h
  simpa using this

@[simp] theorem hasTask_linkDependency (tc : TaskCollection) (a b n : String) :
    hasTask (linkDependency tc a b) n = hasTask tc n := by
  unfold hasTask
  rw [findTask_linkDependency]
  cases findTask tc n <;> rfl

theorem dependenciesOf_linkDependency_self {tc : TaskCollection} {a : String}
    (b : String) (h : hasTask tc a = true) :
    dependenciesOf (linkDependency tc a b) a =
      setAdd (dependenciesOf tc a) b := by
  unfold hasTask at h
  obtain ⟨t, ht⟩ := Option.isSome_iff_exists.mp h
  unfold dependenciesOf
  rw [findTask_linkDependency, ht]
  have hname : t.name = a := findTask_name ht
  show (linkTask a b t).dependencies = setAdd t.dependencies b
  rw [linkTask_dependencies, if_pos hname]

theorem dependentsOf_linkDependency_self {tc : TaskCollection} {b : String}
    (a : String) (h : hasTask tc b = true) :
    dependentsOf (linkDependency tc a b) b = setAdd (dependentsOf tc b) a := by
  unfold hasTask at h
  obtain ⟨t, ht⟩ := Option.isSome_iff_exists.mp h
  unfold dependentsOf
  rw [findTask_linkDependency, ht]
  have hname : t.name = b := findTask_name ht
  show (linkTask a b t).dependents = setAdd t.dependents a
  rw [linkTask_dependents, if_pos hname]

theorem mem_dependenciesOf_linkDependency {tc : TaskCollection} {x n : String}
    (a b : String) (h : x ∈ dependenciesOf tc n) :
    x ∈ dependenciesOf (linkDependency tc a b) n := by
  unfold dependenciesOf at h ⊢
  rw [findTask_linkDependency]
  cases hf : findTask tc n with
  | none => rw [hf] at h; exact absurd h (by simp)
  | some t =>
    rw [hf] at h
    replace h : x ∈ t.dependencies := h
    show x ∈ (linkTask a b t).dependencies
    rw [linkTask_dependencies]
    split
    · exact mem_setAdd_of_mem h
    · exact h

theorem mem_dependentsOf_linkDependency {tc : TaskCollection} {x n : String}
    (a b : String) (h : x ∈ dependentsOf tc n) :
    x ∈ dependentsOf (linkDependency tc a b) n := by
  unfold dependentsOf at h ⊢
  rw [findTask_linkDependency]
  cases hf : findTask tc n with
  | none => rw [hf] at h; exact absurd h (by simp)
  | some t =>
    rw [hf] at h
    replace h : x ∈ t.dependents := h
    show x ∈ (linkTask a b t).dependents
    rw [linkTask_dependents]
    split
    · exact mem_setAdd_of_mem h
    · exact h

@[simp] theorem hasTask_linkAll (taskName : String) (deps : List String) :
    ∀ tc n, hasTask (linkAll tc taskName deps) n = hasTask tc n := by
  induction deps with
  | nil => intro tc n; rfl
  | cons d rest ih =>
    intro tc n
    show hasTask (linkAll (linkDependency tc taskName d) taskName rest) n = _
    rw [ih, hasTask_linkDependency]

theorem mem_dependenciesOf_linkAll (taskName : String) (deps : List String) :
    ∀ tc {x n}, x ∈ dependenciesOf tc n →
      x ∈ dependenciesOf (linkAll tc taskName deps) n := by
  induction deps with
  | nil => intro tc x n h; exact h
  | cons d rest ih =>
    intro tc x n h
    exact ih (linkDependency tc taskName d) (mem_dependenciesOf_linkDependency taskName d h)

theorem mem_dependentsOf_linkAll (taskName : String) (deps : List String) :
    ∀ tc {x n}, x ∈ dependentsOf tc n →
      x ∈ dependentsOf (linkAll tc taskName deps) n := by
  induction deps with
  | nil => intro tc x n h; exact h
  | cons d rest ih =>
    intro tc x n h
    exact ih (linkDependency tc taskName d) (mem_dependentsOf_linkDependency taskName d h)

theorem addDependenciesLoop_fail (taskName bad : String) (rest : List String) :
    ∀ (pre : List String) (tc : TaskCollection),
      (∀ d ∈ pre, hasTask tc d = true) → hasTask tc bad = false →
      addDependenciesLoop taskName tc (pre ++ bad :: rest)
        = (linkAll tc taskName pre, some (.unregisteredDependency bad)) := by
  intro pre
  induction pre with
  | nil =>
    intro tc _ hbad
    show addDependenciesLoop taskName tc (bad :: rest) = _
    unfold addDependenciesLoop
    rw [hbad]
    rfl
  | cons d pre ih =>
    intro tc hpre hbad
    have hd : hasTask tc d = true := hpre d (by simp)
    show addDependenciesLoop taskName tc (d :: (pre ++ bad :: rest)) = _
    unfold addDependenciesLoop
    rw [hd]
    simp only [if_true]
    have := ih (linkDependency tc taskName d)
      (fun d' hd' => by rw [hasTask_linkDependency]; exact hpre d' (by simp [hd']))
      (by rw [hasTask_linkDependency]; exact hbad)
    exact this

theorem linkAll_links (taskName : String) :
    ∀ (pre : List String) (tc : TaskCollection),
      (∀ d ∈ pre, hasTask tc d = true) → hasTask tc taskName = true →
      ∀ d ∈ pre, d ∈ dependenciesOf (linkAll tc taskName pre) taskName ∧
        taskName ∈ dependentsOf (linkAll tc taskName pre) d := by
  intro pre
  induction pre with
  | nil => intro tc _ _ d hd; exact absurd hd (by simp)
  | cons d0 pre ih =>
    intro tc hpre htask d hd
    have hd0 : hasTask tc d0 = true := hpre d0 (by simp)
    have hstep : linkAll tc taskName (d0 :: pre)
        = linkAll (linkDependency tc taskName d0) taskName pre := rfl
    rw [hstep]
    rcases List.mem_cons.mp hd with rfl | hmem
    · constructor
      · refine mem_dependenciesOf_linkAll taskName pre
          (linkDependency tc taskName d) ?_
        rw [dependenciesOf_linkDependency_self d htask]
        exact mem_setAdd_self
      · refine mem_dependentsOf_linkAll taskName pre
          (linkDependency tc taskName d) ?_
        rw [dependentsOf_linkDependency_self taskName hd0]
        exact mem_setAdd_self
    · exact ih (linkDependency tc taskName d0)
        (fun d' hd' => by rw [hasTask_linkDependency]; exact hpre d' (by simp [hd']))
        (by rw [hasTask_linkDependency]; exact htask) d hmem

/-- C10: `TaskCollection.addDependencies` is not atomic on failure — when the
list contains an unregistered dependency name, the loop has already linked
every earlier (registered) name into the task's dependency set and the
dependencies' dependent sets, and the thrown error leaves those links in
place; `addTask`, by contrast, throws on a duplicate name before mutating
anything. -/
theorem addDependencies_failure_atomicity (tc : TaskCollection)
    (taskName bad dup : String) (pre rest : List String)
    (hTask : hasTask tc taskName = true)
    (hPre : ∀ d ∈ pre, hasTask tc d = true)
    (hBad : hasTask tc bad = false)
    (hDup : hasTask tc dup = true) :
    addTask tc dup = (tc, some (.duplicateTask dup)) ∧
    addDependencies tc taskName (pre ++ bad :: rest)
      = (linkAll tc taskName pre, some (.unregisteredDependency bad)) ∧
    ∀ d ∈ pre, d ∈ dependenciesOf (linkAll tc taskName pre) taskName ∧
      taskName ∈ dependentsOf (linkAll tc taskName pre) d := by
  refine ⟨?_, ?_, ?_⟩
  · unfold addTask
    rw [hDup]
    rfl
  · unfold addDependencies
    rw [hTask]
    simp only [if_true]
    exact addDependenciesLoop_fail taskName bad rest pre tc hPre hBad
  · exact linkAll_links taskName pre tc hPre hTask

/-- Witness for C10 at a concrete collection: linking `x → [y, zzz]` in a
collection that registers only `x` and `y` throws on `zzz` but leaves the
`x → y` link behind; re-adding `x` throws and changes nothing. -/
theorem addDependencies_failure_atomicity_witness :
    (hasTask xyTC "x" = true ∧ hasTask xyTC "zzz" = false) ∧
    addTask xyTC "x" = (xyTC, some (.duplicateTask "x")) ∧
    addDependencies xyTC "x" (["y"] ++ "zzz" :: [])
      = (linkAll xyTC "x" ["y"], some (.unregisteredDependency "zzz")) ∧
    ∀ d ∈ ["y"], d ∈ dependenciesOf (linkAll xyTC "x" ["y"]) "x" ∧
      "x" ∈ dependentsOf (linkAll xyTC "x" ["y"]) d := by
  have h := addDependencies_failure_atomicity xyTC "x" "zzz" "x" ["y"] []
    (by decide) (by decide) (by decide) (by decide)
  exact ⟨⟨by decide, by decide⟩, h.1, h.2.1, h.2.2⟩

/-!
## The cycle check: correctness of `_checkForCyclicDependencies`
-/

theorem checkCyclic_nil (tc : TaskCollection) (fuel : Nat)
    (chain checked : List String) :
    checkForCyclicDependencies tc fuel [] chain checked = .ok checked := by
  cases fuel <;> rfl

theorem checkCyclic_cons_zero (tc : TaskCollection) (t : String)
    (rest chain checked : List String) :
    checkForCyclicDependencies tc 0 (t :: rest) chain checked =
      if t ∈ chain then .error (.cyclic (cyclicErrorMessage chain t))
      else if t ∈ checked then checkForCyclicDependencies tc 0 rest chain checked
      else .error .outOfFuel := rfl

theorem checkCyclic_cons_succ (tc : TaskCollection) (f : Nat) (t : String)
    (rest chain checked : List String) :
    checkForCyclicDependencies tc (f + 1) (t :: rest) chain checked =
      if t ∈ chain then .error (.cyclic (cyclicErrorMessage chain t))
      else if t ∈ checked then
        checkForCyclicDependencies tc (f + 1) rest chain checked
      else
        match checkForCyclicDependencies tc f (dependentsOf tc t)
            (chain ++ [t]) (t :: checked) with
        | .error e => .error e
        | .ok checked' =>
          checkForCyclicDependencies tc (f + 1) rest chain checked' := rfl

theorem depEdge_source_mem {tc : TaskCollection} {v d : String}
    (h : depEdge tc v d) : v ∈ namesOf tc := by
  unfold depEdge dependentsOf at h
  cases hf : findTask tc v with
  | none => rw [hf] at h; exact absurd h (by simp)
  | some t =>
    rw [hf] at h
    have hmem : t ∈ tc := List.mem_of_find?_eq_some hf
    have hname : t.name = v := findTask_name hf
    exact hname ▸ List.mem_map_of_mem Task.name hmem

theorem dependentsOf_subset_names {tc : TaskCollection} (hwf : WellFormed tc)
    {v d : String} (h : d ∈ dependentsOf tc v) : d ∈ namesOf tc := by
  unfold dependentsOf at h
  cases hf : findTask tc v with
  | none => rw [hf] at h; exact absurd h (by simp)
  | some t =>
    rw [hf] at h
    exact hwf t (List.mem_of_find?_eq_some hf) d h

theorem checkCyclic_subset (tc : TaskCollection) :
    ∀ (fuel : Nat) (tasks chain checked checked₂ : List String),
      checkForCyclicDependencies tc fuel tasks chain checked = .ok checked₂ →
      checked ⊆ checked₂ := by
  intro fuel
  induction fuel with
  | zero =>
    intro tasks
    induction tasks with
    | nil =>
      intro chain checked checked₂ h
      rw [checkCyclic_nil] at h
      injection h with h
      exact h ▸ List.Subset.refl _
    | cons t rest ih =>
      intro chain checked checked₂ h
      rw [checkCyclic_cons_zero] at h
      by_cases hchain : t ∈ chain
      · rw [if_pos hchain] at h; exact absurd h (by simp)
      · rw [if_neg hchain] at h
        by_cases hchecked : t ∈ checked
        · rw [if_pos hchecked] at h
          exact ih chain checked checked₂ h
        · rw [if_neg hchecked] at h
          exact absurd h (by simp)
  | succ f ihf =>
    intro tasks
    induction tasks with
    | nil =>
      intro chain checked checked₂ h
      rw [checkCyclic_nil] at h
      injection h with h
      exact h ▸ List.Subset.refl _
    | cons t rest ih =>
      intro chain checked checked₂ h
      rw [checkCyclic_cons_succ] at h
      by_cases hchain : t ∈ chain
      · rw [if_pos hchain] at h; exact absurd h (by simp)
      · rw [if_neg hchain] at h
        by_cases hchecked : t ∈ checked
        · rw [if_pos hchecked] at h
          exact ih chain checked checked₂ h
        · rw [if_neg hchecked] at h
          cases hinner : checkForCyclicDependencies tc f (dependentsOf tc t)
              (chain ++ [t]) (t :: checked) with
          | error e => rw [hinner] at h; exact absurd h (by simp)
          | ok checked' =>
            rw [hinner] at h
            have h1 : (t :: checked) ⊆ checked' :=
              ihf (dependentsOf tc t) (chain ++ [t]) (t :: checked) checked' hinner
            have h2 : checked' ⊆ checked₂ := ih chain checked' checked₂ h
            exact fun x hx => h2 (h1 (List.mem_cons_of_mem t hx))

theorem length_filter_mono {α : Type} (p q : α → Bool)
    (h : ∀ x, p x = true → q x = true) :
    ∀ l : List α, (l.filter p).length ≤ (l.filter q).length := by
  intro l
  induction l with
  | nil => simp
  | cons a l ih =>
    rw [List.filter_cons, List.filter_cons]
    by_cases hp : p a = true
    · rw [hp, h a hp]
      simpa using ih
    · rw [Bool.eq_false_iff.mpr hp]
      cases hq : q a <;> simp <;> omega

theorem uncheckedCount_le_of_subset (tc : TaskCollection)
    {checked checked' : List String} (h : checked ⊆ checked') :
    uncheckedCount tc checked' ≤ uncheckedCount tc checked := by
  unfold uncheckedCount
  refine length_filter_mono _ _ ?_ _
  intro x hx
  simp only [decide_eq_true_eq] at hx ⊢
  exact fun hmem => hx (h hmem)

theorem uncheckedCount_cons_lt (tc : TaskCollection) {t : String}
    {checked : List String} (h1 : t ∈ namesOf tc) (h2 : t ∉ checked) :
    uncheckedCount tc (t :: checked) < uncheckedCount tc checked := by
  unfold uncheckedCount
  have hsplit : ((namesOf tc).dedup.filter fun n => decide (n ∉ t :: checked))
      = ((namesOf tc).dedup.filter fun n => decide (n ∉ checked)).filter
          fun n => decide (n ≠ t) := by
    rw [List.filter_filter]
    apply List.filter_congr
    intro x _
    by_cases hxt : x = t <;> by_cases hxc : x ∈ checked <;>
      simp [hxt, hxc, List.mem_cons]
  rw [hsplit]
  apply List.length_filter_lt_length_iff_exists.mpr
  refine ⟨t, ?_, by simp⟩
  rw [List.mem_filter]
  exact ⟨List.mem_dedup.mpr h1, by simpa using h2⟩

theorem checkCyclic_ne_outOfFuel (tc : TaskCollection) (hwf : WellFormed tc) :
    ∀ (fuel : Nat) (tasks chain checked : List String),
      (∀ s ∈ tasks, s ∈ namesOf tc) →
      uncheckedCount tc checked < fuel →
      checkForCyclicDependencies tc fuel tasks chain checked ≠ .error .outOfFuel := by
  intro fuel
  induction fuel with
  | zero => intro tasks chain checked _ hcount; omega
  | succ f ihf =>
    intro tasks
    induction tasks with
    | nil =>
      intro chain checked _ _
      rw [checkCyclic_nil]
      simp
    | cons t rest ih =>
      intro chain checked hsub hcount
      rw [checkCyclic_cons_succ]
      by_cases hchain : t ∈ chain
      · rw [if_pos hchain]; simp
      · rw [if_neg hchain]
        by_cases hchecked : t ∈ checked
        · rw [if_pos hchecked]
          exact ih chain checked (fun s hs => hsub s (List.mem_cons_of_mem t hs)) hcount
        · rw [if_neg hchecked]
          have htname : t ∈ namesOf tc := hsub t (List.mem_cons_self t rest)
          have hlt : uncheckedCount tc (t :: checked) < f := by
            have := uncheckedCount_cons_lt tc htname hchecked
            omega
          cases hinner : checkForCyclicDependencies tc f (dependentsOf tc t)
              (chain ++ [t]) (t :: checked) with
          | error e =>
            cases e with
            | cyclic msg => simp
            | outOfFuel =>
              exact absurd hinner (ihf (dependentsOf tc t) (chain ++ [t]) (t :: checked)
                (fun s hs => dependentsOf_subset_names hwf hs) hlt)
          | ok checked' =>
            have hsub' : (t :: checked) ⊆ checked' :=
              checkCyclic_subset tc f _ _ _ _ hinner
            have hcount' : uncheckedCount tc checked' < f + 1 := by
              have h1 := uncheckedCount_le_of_subset tc
                (fun x hx => hsub' (List.mem_cons_of_mem t hx))
              have h2 := uncheckedCount_cons_lt tc htname hchecked
              omega
            exact ih chain checked' (fun s hs => hsub s (List.mem_cons_of_mem t hs)) hcount'

theorem checkCyclic_error_cyclic (tc : TaskCollection) :
    ∀ (fuel : Nat) (tasks chain checked : List String) (msg : String),
      (∀ s ∈ tasks, ∀ c ∈ chain, Relation.TransGen (depEdge tc) c s) →
      checkForCyclicDependencies tc fuel tasks chain checked = .error (.cyclic msg) →
      Cyclic tc := by
  intro fuel
  induction fuel with
  | zero =>
    intro tasks
    induction tasks with
    | nil =>
      intro chain checked msg _ h
      rw [checkCyclic_nil] at h
      exact absurd h (by simp)
    | cons t rest ih =>
      intro chain checked msg hinv h
      rw [checkCyclic_cons_zero] at h
      by_cases hchain : t ∈ chain
      · exact ⟨t, hinv t (List.mem_cons_self t rest) t hchain⟩
      · rw [if_neg hchain] at h
        by_cases hchecked : t ∈ checked
        · rw [if_pos hchecked] at h
          exact ih chain checked msg
            (fun s hs c hc => hinv s (List.mem_cons_of_mem t hs) c hc) h
        · rw [if_neg hchecked] at h
          exact absurd h (by simp)
  | succ f ihf =>
    intro tasks
    induction tasks with
    | nil =>
      intro chain checked msg _ h
      rw [checkCyclic_nil] at h
      exact absurd h (by simp)
    | cons t rest ih =>
      intro chain checked msg hinv h
      rw [checkCyclic_cons_succ] at h
      by_cases hchain : t ∈ chain
      · exact ⟨t, hinv t (List.mem_cons_self t rest) t hchain⟩
      · rw [if_neg hchain] at h
        by_cases hchecked : t ∈ checked
        · rw [if_pos hchecked] at h
          exact ih chain checked msg
            (fun s hs c hc => hinv s (List.mem_cons_of_mem t hs) c hc) h
        · rw [if_neg hchecked] at h
          have hinv' : ∀ s ∈ dependentsOf tc t, ∀ c ∈ chain ++ [t],
              Relation.TransGen (depEdge tc) c s := by
            intro s hs c hc
            rcases List.mem_append.mp hc with hc | hc
            · exact (hinv t (List.mem_cons_self t rest) c hc).tail hs
            · rw [List.mem_singleton.mp hc]
              exact Relation.TransGen.single hs
          cases hinner : checkForCyclicDependencies tc f (dependentsOf tc t)
              (chain ++ [t]) (t :: checked) with
          | error e =>
            rw [hinner] at h
            injection h with h
            cases e with
            | cyclic msg' =>
              exact ihf (dependentsOf tc t) (chain ++ [t]) (t :: checked) msg' hinv' hinner
            | outOfFuel => exact absurd h.symm (by simp)
          | ok checked' =>
            rw [hinner] at h
            exact ih chain checked' msg
              (fun s hs c hc => hinv s (List.mem_cons_of_mem t hs) c hc) h

theorem depEdge_iff_mem {tc : TaskCollection} {x y : String} :
    depEdge tc x y ↔ y ∈ dependentsOf tc x := Iff.rfl

theorem reach_of_closed {tc : TaskCollection} {S : String → Prop}
    (hS : ∀ v, S v → ∀ w, depEdge tc v w → S w) {d w : String} (hd : S d)
    (h : Relation.ReflTransGen (depEdge tc) d w) : S w := by
  induction h with
  | refl => exact hd
  | tail _ he ih => exact hS _ ih _ he

theorem black_cons_iff {checked chain : List String} {t v : String}
    (ht : t ∉ checked) :
    Black (t :: checked) (chain ++ [t]) v ↔ Black checked chain v := by
  unfold Black
  constructor
  · rintro ⟨hv, hnv⟩
    have hvt : v ≠ t := fun he => hnv (he ▸ List.mem_append.mpr (Or.inr (by simp)))
    rcases List.mem_cons.mp hv with he | hv'
    · exact absurd he hvt
    · exact ⟨hv', fun hc => hnv (List.mem_append.mpr (Or.inl hc))⟩
  · rintro ⟨hv, hnv⟩
    have hvt : v ≠ t := fun he => ht (he ▸ hv)
    refine ⟨List.mem_cons_of_mem t hv, fun hc => ?_⟩
    rcases List.mem_append.mp hc with hc | hc
    · exact hnv hc
    · exact hvt (List.mem_singleton.mp hc)

theorem checkCyclic_ok_inv (tc : TaskCollection) :
    ∀ (fuel : Nat) (tasks chain checked checked₂ : List String),
      checkForCyclicDependencies tc fuel tasks chain checked = .ok checked₂ →
      chain ⊆ checked →
      (∀ v, Black checked chain v → CycleFree tc v ∧
        ∀ w, depEdge tc v w → Black checked chain w) →
      (∀ t ∈ tasks, Black checked₂ chain t) ∧
      (∀ v, Black checked₂ chain v → CycleFree tc v ∧
        ∀ w, depEdge tc v w → Black checked₂ chain w) := by
  intro fuel
  induction fuel with
  | zero =>
    intro tasks
    induction tasks with
    | nil =>
      intro chain checked checked₂ h _ hblack
      rw [checkCyclic_nil] at h
      injection h with h
      subst h
      exact ⟨fun t ht => absurd ht (by simp), hblack⟩
    | cons t rest ih =>
      intro chain checked checked₂ h hcs hblack
      rw [checkCyclic_cons_zero] at h
      by_cases hchain : t ∈ chain
      · rw [if_pos hchain] at h; exact absurd h (by simp)
      · rw [if_neg hchain] at h
        by_cases hchecked : t ∈ checked
        · rw [if_pos hchecked] at h
          obtain ⟨hrest, hinv⟩ := ih chain checked checked₂ h hcs hblack
          have hsub := checkCyclic_subset tc 0 rest chain checked checked₂ h
          refine ⟨fun s hs => ?_, hinv⟩
          rcases List.mem_cons.mp hs with rfl | hs'
          · exact ⟨hsub hchecked, hchain⟩
          · exact hrest s hs'
        · rw [if_neg hchecked] at h
          exact absurd h (by simp)
  | succ f ihf =>
    intro tasks
    induction tasks with
    | nil =>
      intro chain checked checked₂ h _ hblack
      rw [checkCyclic_nil] at h
      injection h with h
      subst h
      exact ⟨fun t ht => absurd ht (by simp), hblack⟩
    | cons t rest ih =>
      intro chain checked checked₂ h hcs hblack
      rw [checkCyclic_cons_succ] at h
      by_cases hchain : t ∈ chain
      · rw [if_pos hchain] at h; exact absurd h (by simp)
      · rw [if_neg hchain] at h
        by_cases hchecked : t ∈ checked
        · rw [if_pos hchecked] at h
          obtain ⟨hrest, hinv⟩ := ih chain checked checked₂ h hcs hblack
          have hsub := checkCyclic_subset tc (f + 1) rest chain checked checked₂ h
          refine ⟨fun s hs => ?_, hinv⟩
          rcases List.mem_cons.mp hs with rfl | hs'
          · exact ⟨hsub hchecked, hchain⟩
          · exact hrest s hs'
        · rw [if_neg hchecked] at h
          cases hinner : checkForCyclicDependencies tc f (dependentsOf tc t)
              (chain ++ [t]) (t :: checked) with
          | error e => rw [hinner] at h; exact absurd h (by simp)
          | ok checked₁ =>
            rw [hinner] at h
            -- invariants transported into the recursive descent
            have hcs' : chain ++ [t] ⊆ t :: checked := by
              intro c hc
              rcases List.mem_append.mp hc with hc | hc
              · exact List.mem_cons_of_mem t (hcs hc)
              · rw [List.mem_singleton.mp hc]; exact List.mem_cons_self t checked
            have hblack' : ∀ v, Black (t :: checked) (chain ++ [t]) v →
                CycleFree tc v ∧ ∀ w, depEdge tc v w →
                  Black (t :: checked) (chain ++ [t]) w := by
              intro v hv
              obtain ⟨hcf, hcl⟩ := hblack v ((black_cons_iff hchecked).mp hv)
              exact ⟨hcf, fun w hw => (black_cons_iff hchecked).mpr (hcl w hw)⟩
            obtain ⟨hdeps, hinv₁⟩ :=
              ihf (dependentsOf tc t) (chain ++ [t]) (t :: checked) checked₁
                hinner hcs' hblack'
            have hsub₁ : (t :: checked) ⊆ checked₁ :=
              checkCyclic_subset tc f _ _ _ _ hinner
            have htc₁ : t ∈ checked₁ := hsub₁ (List.mem_cons_self t checked)
            have hb_of : ∀ v, Black checked₁ (chain ++ [t]) v →
                Black checked₁ chain v := by
              rintro v ⟨hv, hnv⟩
              exact ⟨hv, fun hc => hnv (List.mem_append.mpr (Or.inl hc))⟩
            have hb_to : ∀ v, Black checked₁ chain v →
                v = t ∨ Black checked₁ (chain ++ [t]) v := by
              rintro v ⟨hv, hnv⟩
              by_cases hvt : v = t
              · exact Or.inl hvt
              · refine Or.inr ⟨hv, fun hc => ?_⟩
                rcases List.mem_append.mp hc with hc | hc
                · exact hnv hc
                · exact hvt (List.mem_singleton.mp hc)
            have hclosed₁ : ∀ v, Black checked₁ (chain ++ [t]) v →
                ∀ w, depEdge tc v w → Black checked₁ (chain ++ [t]) w :=
              fun v hv => (hinv₁ v hv).2
            have htnb : ¬Black checked₁ (chain ++ [t]) t := by
              rintro ⟨_, hnt⟩
              exact hnt (List.mem_append.mpr (Or.inr (by simp)))
            have hreach_black : ∀ d w, Black checked₁ (chain ++ [t]) d →
                Relation.ReflTransGen (depEdge tc) d w →
                Black checked₁ (chain ++ [t]) w :=
              fun d w hd hr => reach_of_closed hclosed₁ hd hr
            have hnoTt : ¬Relation.TransGen (depEdge tc) t t := by
              intro htt
              obtain ⟨d, hd, hdt⟩ : ∃ d, depEdge tc t d ∧
                  Relation.ReflTransGen (depEdge tc) d t :=
                Relation.TransGen.head'_iff.mp htt
              exact htnb (hreach_black d t (hdeps d (depEdge_iff_mem.mp hd)) hdt)
            have hcfT : CycleFree tc t := by
              intro w hw hww
              rcases Relation.ReflTransGen.cases_head hw with rfl | ⟨d, hd, hdw⟩
              · exact hnoTt hww
              · have hdb : Black checked₁ (chain ++ [t]) d :=
                  hdeps d (depEdge_iff_mem.mp hd)
                have hwb : Black checked₁ (chain ++ [t]) w := hreach_black d w hdb hdw
                exact (hinv₁ w hwb).1 w Relation.ReflTransGen.refl hww
            have hP₂ : ∀ v, Black checked₁ chain v → CycleFree tc v ∧
                ∀ w, depEdge tc v w → Black checked₁ chain w := by
              intro v hv
              rcases hb_to v hv with rfl | hv₁
              · exact ⟨hcfT, fun w hw => hb_of w (hdeps w (depEdge_iff_mem.mp hw))⟩
              · exact ⟨(hinv₁ v hv₁).1, fun w hw => hb_of w ((hinv₁ v hv₁).2 w hw)⟩
            have hcs₁ : chain ⊆ checked₁ :=
              fun c hc => hsub₁ (List.mem_cons_of_mem t (hcs hc))
            obtain ⟨hrest, hinv₂⟩ := ih chain checked₁ checked₂ h hcs₁ hP₂
            have hsub₂ : checked₁ ⊆ checked₂ :=
              checkCyclic_subset tc (f + 1) rest chain checked₁ checked₂ h
            refine ⟨fun s hs => ?_, hinv₂⟩
            rcases List.mem_cons.mp hs with rfl | hs'
            · exact ⟨hsub₂ htc₁, hchain⟩
            · exact hrest s hs'

/-- A successful top-level cycle check certifies acyclicity of the dependent
graph. -/
theorem acyclic_of_check_ok {tc : TaskCollection} {checked : List String}
    (hr : checkForCyclicDependencies tc (tc.length + 1)
      (tc.map Task.name) [] [] = .ok checked) :
    ∀ v, ¬Relation.TransGen (depEdge tc) v v := by
  obtain ⟨hall, hinv⟩ :=
    checkCyclic_ok_inv tc (tc.length + 1) (tc.map Task.name) [] [] checked hr
      (by simp) (fun v hv => absurd hv.1 (by simp))
  intro v hv
  have hvmem : v ∈ tc.map Task.name := by
    obtain ⟨d, hd, _⟩ := Relation.TransGen.head'_iff.mp hv
    exact depEdge_source_mem hd
  exact (hinv v (hall v hvmem)).1 v Relation.ReflTransGen.refl hv

/-- C1: for a well-formed collection, `getOrderedTasks` throws a
cyclic-dependency error exactly on cyclic dependent graphs: any cycle makes it
fail with the cyclic-dependency message, and on acyclic graphs it succeeds and
returns all registered tasks (the output names are a permutation of the
registered names). -/
theorem getOrderedTasks_cycle_detection (tc : TaskCollection)
    (hwf : WellFormed tc) :
    (Cyclic tc → ∃ msg, getOrderedTasks tc = .error (.cyclic msg)) ∧
    (¬Cyclic tc → ∃ ts, getOrderedTasks tc = .ok ts ∧
      (ts.map Task.name).Perm (tc.map Task.name)) := by
  have hcount : uncheckedCount tc [] < tc.length + 1 := by
    have h1 : uncheckedCount tc [] ≤ (namesOf tc).dedup.length :=
      List.length_filter_le _ _
    have h2 : (namesOf tc).dedup.length ≤ (namesOf tc).length :=
      (List.dedup_sublist _).length_le
    have h3 : (namesOf tc).length = tc.length := List.length_map tc Task.name
    omega
  have hnofuel : checkForCyclicDependencies tc (tc.length + 1)
      (tc.map Task.name) [] [] ≠ .error .outOfFuel :=
    checkCyclic_ne_outOfFuel tc hwf (tc.length + 1) (tc.map Task.name) [] []
      (fun s hs => hs) hcount
  cases hr : checkForCyclicDependencies tc (tc.length + 1)
      (tc.map Task.name) [] [] with
  | error e =>
    cases e with
    | outOfFuel => exact absurd hr hnofuel
    | cyclic msg =>
      have hcyc : Cyclic tc :=
        checkCyclic_error_cyclic tc (tc.length + 1) (tc.map Task.name) [] [] msg
          (fun s _ c hc => absurd hc (by simp)) hr
      constructor
      · intro _
        refine ⟨msg, ?_⟩
        unfold getOrderedTasks
        rw [hr]
      · intro hnc
        exact absurd hcyc hnc
  | ok checked₂ =>
    have hacyc : ¬Cyclic tc := by
      rintro ⟨v, hv⟩
      exact acyclic_of_check_ok hr v hv
    constructor
    · intro hc
      exact absurd hc hacyc
    · intro _
      refine ⟨sortByKey taskSortKey (annotateCriticalPaths tc), ?_, ?_⟩
      · unfold getOrderedTasks
        rw [hr]
      · have h1 := List.perm_insertionSort
          (fun a b => taskSortKey a ≤ taskSortKey b) (annotateCriticalPaths tc)
        have h2 := h1.map Task.name
        unfold annotateCriticalPaths at h2
        rw [List.map_map] at h2
        exact h2

/-- Witness for C1 at the spec's two-task cycle: the collection is
well-formed and cyclic, and `getOrderedTasks` fails with the exact message
naming the chain `A -> B -> A`. -/
theorem getOrderedTasks_cycle_detection_witness :
    WellFormed abTC ∧
    (∃ msg, getOrderedTasks abTC = .error (.cyclic msg)) ∧
    getOrderedTasks abTC = .error (.cyclic
      ("A cyclic dependency was encountered:\n  A\n  -> B\n  -> A\n" ++
        "Consider using the cyclicDependencyProjects option for rush.json.")) := by
  have e1 : depEdge abTC "A" "B" := by decide
  have e2 : depEdge abTC "B" "A" := by decide
  refine ⟨by decide, ?_, by decide⟩
  exact (getOrderedTasks_cycle_detection abTC (by decide)).1
    ⟨"A", Relation.TransGen.head e1 (Relation.TransGen.single e2)⟩

/-!
## Lemmas and claims about `ProjectBuilder._executeTaskAsync`
-/

theorem areShallowEqual_iff (object1 object2 : List (String × String)) :
    areShallowEqual object1 object2 = true ↔
      (∀ kv ∈ object1, lookupFile object2 kv.1 = some kv.2) ∧
      (∀ kv ∈ object2, (lookupFile object1 kv.1).isSome = true) := by
  unfold areShallowEqual
  rw [Bool.and_eq_true, List.all_eq_true, List.all_eq_true]
  constructor
  · rintro ⟨h1, h2⟩
    exact ⟨fun kv hkv => by have := h1 kv hkv; simpa using this,
           fun kv hkv => h2 kv hkv⟩
  · rintro ⟨h1, h2⟩
    exact ⟨fun kv hkv => by simpa using h1 kv hkv, fun kv hkv => h2 kv hkv⟩

theorem currentProjectBuildDeps_arguments {env : ExecEnv} {c : ProjectBuildDeps}
    (h : currentProjectBuildDeps env = some c) : c.arguments = env.commandToRun := by
  unfold currentProjectBuildDeps at h
  cases hf : env.analyzerFiles with
  | none => rw [hf] at h; exact absurd h (by simp)
  | some files =>
    rw [hf] at h
    replace h : some ({ files := files, arguments := env.commandToRun } : ProjectBuildDeps)
        = some c := h
    injection h with h
    rw [← h]

theorem isPackageUnchanged_iff (env : ExecEnv) :
    isPackageUnchanged env = true ↔
      ∃ last current, lastProjectBuildDeps env = some last ∧
        currentProjectBuildDeps env = some current ∧
        last.arguments = env.commandToRun ∧
        (∀ kv ∈ current.files, lookupFile last.files kv.1 = some kv.2) ∧
        (∀ kv ∈ last.files, (lookupFile current.files kv.1).isSome = true) := by
  unfold isPackageUnchanged
  cases hl : lastProjectBuildDeps env with
  | none => simp
  | some last =>
    cases hc : currentProjectBuildDeps env with
    | none => simp
    | some current =>
      have harg : current.arguments = env.commandToRun :=
        currentProjectBuildDeps_arguments hc
      rw [Bool.and_eq_true, beq_iff_eq, areShallowEqual_iff]
      constructor
      · rintro ⟨he, h1, h2⟩
        exact ⟨last, current, rfl, rfl, by rw [← he, harg], h1, h2⟩
      · rintro ⟨last2, current2, hl2, hc2, he, h1, h2⟩
        obtain rfl : last2 = last := by injection hl2 with h; exact h.symm
        obtain rfl : current2 = current := by injection hc2 with h; exact h.symm
        exact ⟨by rw [harg, he], h1, h2⟩

/-- C4: the run returns `Skipped` exactly when no cache restore succeeded, a
prior build state was loaded from the state file, the change analyzer
produced the current file-hash map, the prior arguments equal the current
command string, the two file-hash maps agree on key set and hash values, and
incremental builds are allowed. -/
theorem executeTask_skipped_iff (env : ExecEnv) :
    (executeTask env).result = .ok .skipped ↔
      restoreFromCacheSuccess env = false ∧
      env.isIncrementalBuildAllowed = true ∧
      ∃ last current, lastProjectBuildDeps env = some last ∧
        currentProjectBuildDeps env = some current ∧
        last.arguments = env.commandToRun ∧
        (∀ kv ∈ current.files, lookupFile last.files kv.1 = some kv.2) ∧
        (∀ kv ∈ last.files, (lookupFile current.files kv.1).isSome = true) := by
  have hcode : (executeTask env).result = .ok .skipped ↔
      restoreFromCacheSuccess env = false ∧ isPackageUnchanged env = true ∧
        env.isIncrementalBuildAllowed = true := by
    unfold executeTask
    split_ifs with h1 h2 h3 h4 h5 h6 <;> simp_all
  rw [hcode, isPackageUnchanged_iff]
  constructor
  · rintro ⟨hr, hu, hi⟩; exact ⟨hr, hi, hu⟩
  · rintro ⟨hr, hi, hu⟩; exact ⟨hr, hu, hi⟩

/-- Counterexample to C5 as stated: a successful cache restore returns
`FromCache` but does not write the per-project state file. -/
theorem executeTask_fromCache_counterexample :
    restoreFromCacheSuccess envRestore = true ∧
    executeTask envRestore =
      { result := .ok .fromCache, spawnedProcess := false, wroteStateFile := false,
        attemptedCacheWrite := false, deletedStateFile := false } ∧
    ¬(executeTask envRestore).wroteStateFile = true := by
  refine ⟨by decide, by decide, by decide⟩

/-- C5 amended: when a build cache is configured and the restore succeeds the
run terminates with `FromCache` immediately; the per-project state file is
not written (and not deleted) on this path. -/
theorem executeTask_fromCache (env : ExecEnv)
    (h : restoreFromCacheSuccess env = true) :
    executeTask env =
      { result := .ok .fromCache, spawnedProcess := false, wroteStateFile := false,
        attemptedCacheWrite := false, deletedStateFile := false } := by
  unfold executeTask
  rw [h]
  rfl

/-- Witness for the amended C5 at `envRestore`. -/
theorem executeTask_fromCache_witness :
    restoreFromCacheSuccess envRestore = true ∧
    executeTask envRestore =
      { result := .ok .fromCache, spawnedProcess := false, wroteStateFile := false,
        attemptedCacheWrite := false, deletedStateFile := false } :=
  ⟨by decide, executeTask_fromCache envRestore (by decide)⟩

/-- Counterexample to C6 as stated: with a corrupt prior state file (parse
warning) a clean zero-exit run with no stderr output and no cache still
terminates `SuccessWithWarning`. -/
theorem executeTask_successWithWarning_counterexample :
    envParseWarn.exitCode = 0 ∧
    envParseWarn.stderrChunkSeen = false ∧
    projectBuildCacheAvailable envParseWarn = false ∧
    (executeTask envParseWarn).attemptedCacheWrite = false ∧
    (executeTask envParseWarn).result = .ok .successWithWarning := by
  refine ⟨by decide, by decide, by decide, by decide, by decide⟩

/-- C6 amended: for a run that spawns the command, `SuccessWithWarning` is
returned exactly when the command exited zero and either wrote to stderr, or
the post-run block ran (analyzer map available) and the cache write failed or
a warning line had been logged (corrupt state-file parse); a non-zero exit
always surfaces as a thrown `TaskError` instead. -/
theorem executeTask_successWithWarning (env : ExecEnv)
    (hspawn : (executeTask env).spawnedProcess = true) :
    ((executeTask env).result = .ok .successWithWarning ↔
      env.exitCode = 0 ∧
        (env.stderrChunkSeen = true ∨
          ((currentProjectBuildDeps env).isSome = true ∧
            ((projectBuildCacheAvailable env = true ∧ env.cacheWriteSuccess = false) ∨
              parseWarningIssued env = true)))) ∧
    (env.exitCode ≠ 0 →
      (executeTask env).result = .error ("Returned error code: " ++ toString env.exitCode)) := by
  unfold executeTask at hspawn ⊢
  split_ifs at hspawn ⊢ with h1 h2 h3 h4 h5 h6 <;> simp_all

/-- Witness for the amended C6 at `envParseWarn`: the run spawns, exits zero
without stderr output, and the parse-warning disjunct makes it
`SuccessWithWarning`. -/
theorem executeTask_successWithWarning_witness :
    (executeTask envParseWarn).spawnedProcess = true ∧
    (((executeTask envParseWarn).result = .ok .successWithWarning ↔
      envParseWarn.exitCode = 0 ∧
        (envParseWarn.stderrChunkSeen = true ∨
          ((currentProjectBuildDeps envParseWarn).isSome = true ∧
            ((projectBuildCacheAvailable envParseWarn = true ∧
                envParseWarn.cacheWriteSuccess = false) ∨
              parseWarningIssued envParseWarn = true)))) ∧
    (envParseWarn.exitCode ≠ 0 →
      (executeTask envParseWarn).result =
        .error ("Returned error code: " ++ toString envParseWarn.exitCode))) :=
  ⟨by decide, executeTask_successWithWarning envParseWarn (by decide)⟩

/-- Counterexample to C7 as stated: an empty-command project whose prior
state matches is `Skipped`, not `Success`, and writes nothing. -/
theorem executeTask_empty_command_counterexample :
    envEmptyUnchanged.commandToRun = "" ∧
    executeTask envEmptyUnchanged =
      { result := .ok .skipped, spawnedProcess := false, wroteStateFile := false,
        attemptedCacheWrite := false, deletedStateFile := false } ∧
    ¬(executeTask envEmptyUnchanged).result = .ok .success := by
  refine ⟨by decide, by decide, by decide⟩

/-- C7 amended: an empty-command run never spawns a child process; when
neither the cache restore nor the incremental skip fires it terminates
`Success` without spawning, writing the state file exactly when the analyzer
produced a file-hash map. -/
theorem executeTask_empty_command (env : ExecEnv)
    (hcmd : env.commandToRun = "") :
    (executeTask env).spawnedProcess = false ∧
    (restoreFromCacheSuccess env = false →
      ¬(isPackageUnchanged env = true ∧ env.isIncrementalBuildAllowed = true) →
      executeTask env =
        { result := .ok .success, spawnedProcess := false,
          wroteStateFile := (currentProjectBuildDeps env).isSome,
          attemptedCacheWrite := false, deletedStateFile := true }) := by
  constructor
  · unfold executeTask
    split_ifs with a b <;> rfl
  · intro hres hni
    have h2 : (isPackageUnchanged env && env.isIncrementalBuildAllowed) = false := by
      cases hb : (isPackageUnchanged env && env.isIncrementalBuildAllowed)
      · rfl
      · exact absurd (by simpa using hb) hni
    unfold executeTask
    rw [hres, h2]
    simp only [Bool.false_eq_true, if_false, if_pos hcmd]

/-- Witness for the amended C7 at `envEmptyFresh`. -/
theorem executeTask_empty_command_witness :
    envEmptyFresh.commandToRun = "" ∧
    ((executeTask envEmptyFresh).spawnedProcess = false ∧
      (restoreFromCacheSuccess envEmptyFresh = false →
        ¬(isPackageUnchanged envEmptyFresh = true ∧
            envEmptyFresh.isIncrementalBuildAllowed = true) →
        executeTask envEmptyFresh =
          { result := .ok .success, spawnedProcess := false,
            wroteStateFile := (currentProjectBuildDeps envEmptyFresh).isSome,
            attemptedCacheWrite := false, deletedStateFile := true })) :=
  ⟨by decide, executeTask_empty_command envEmptyFresh (by decide)⟩

/-- C9: when the change analyzer throws, the run is degraded to always-run
and uncacheable — it is never `Skipped` and never `FromCache`, the command is
spawned (for a non-empty command string), and no state file or cache entry is
ever written. -/
theorem executeTask_analyzer_unavailable (env : ExecEnv)
    (h : env.analyzerFiles = none) (hcmd : env.commandToRun ≠ "") :
    (executeTask env).result ≠ .ok .skipped ∧
    (executeTask env).result ≠ .ok .fromCache ∧
    (executeTask env).spawnedProcess = true ∧
    (executeTask env).wroteStateFile = false ∧
    (executeTask env).attemptedCacheWrite = false := by
  have hres : restoreFromCacheSuccess env = false := by
    unfold restoreFromCacheSuccess projectBuildCacheAvailable
    rw [h]
    simp
  have hcur : currentProjectBuildDeps env = none := by
    unfold currentProjectBuildDeps
    rw [h]
    rfl
  have hunch : isPackageUnchanged env = false := by
    unfold isPackageUnchanged
    rw [hcur]
    cases lastProjectBuildDeps env <;> rfl
  unfold executeTask
  rw [hres, hunch, hcur]
  simp only [Bool.false_and, Option.isSome_none, Bool.false_eq_true, if_false]
  rw [if_neg hcmd]
  split_ifs <;> simp_all

/-- Witness for C9 at `envAnalyzerDown`: the cache is configured and even
reports a restorable entry, but the analyzer failure makes the run execute
fully and store nothing. -/
theorem executeTask_analyzer_unavailable_witness :
    (envAnalyzerDown.analyzerFiles = none ∧ envAnalyzerDown.commandToRun ≠ "") ∧
    ((executeTask envAnalyzerDown).result ≠ .ok .skipped ∧
      (executeTask envAnalyzerDown).result ≠ .ok .fromCache ∧
      (executeTask envAnalyzerDown).spawnedProcess = true ∧
      (executeTask envAnalyzerDown).wroteStateFile = false ∧
      (executeTask envAnalyzerDown).attemptedCacheWrite = false) :=
  ⟨⟨by decide, by decide⟩,
    executeTask_analyzer_unavailable envAnalyzerDown (by decide) (by decide)⟩

/-!
## The build queue order: sortedness and stability of `Sort.sortBy`
-/

theorem filter_orderedInsert {α : Type} (r : α → α → Prop) [DecidableRel r]
    (q : α → Bool) (hq : ∀ a b, q a = true → q b = true → r a b)
    (a : α) (ha : q a = true) :
    ∀ l : List α, (l.orderedInsert r a).filter q = a :: l.filter q := by
  intro l
  induction l with
  | nil => simp [List.orderedInsert, ha]
  | cons b l ih =>
    unfold List.orderedInsert
    split
    · simp [List.filter_cons, ha]
    · next hr =>
      have hb : q b = false := by
        cases hqb : q b
        · rfl
        · exact absurd (hq a b ha hqb) hr
      rw [List.filter_cons, List.filter_cons, hb]
      simp only [Bool.false_eq_true, if_false]
      exact ih

theorem filter_orderedInsert_neg {α : Type} (r : α → α → Prop) [DecidableRel r]
    (q : α → Bool) (a : α) (ha : q a = false) :
    ∀ l : List α, (l.orderedInsert r a).filter q = l.filter q := by
  intro l
  induction l with
  | nil => simp [List.orderedInsert, ha]
  | cons b l ih =>
    unfold List.orderedInsert
    split
    · simp [List.filter_cons, ha]
    · rw [List.filter_cons, List.filter_cons]
      cases hb : q b
      · simpa [hb] using ih
      · simpa [hb] using ih

theorem filter_insertionSort {α : Type} (r : α → α → Prop) [DecidableRel r]
    (q : α → Bool) (hq : ∀ a b, q a = true → q b = true → r a b) :
    ∀ l : List α, (l.insertionSort r).filter q = l.filter q := by
  intro l
  induction l with
  | nil => rfl
  | cons a l ih =>
    show ((l.insertionSort r).orderedInsert r a).filter q = (a :: l).filter q
    cases ha : q a
    · rw [filter_orderedInsert_neg r q a ha, ih, List.filter_cons, ha]
      simp
    · rw [filter_orderedInsert r q hq a ha, ih, List.filter_cons, ha]
      simp

theorem sortByKey_sorted (key : Task → Int) (l : List Task) :
    (sortByKey key l).Pairwise fun a b => key a ≤ key b := by
  haveI : IsTotal Task fun a b => key a ≤ key b := ⟨fun a b => Int.le_total _ _⟩
  haveI : IsTrans Task fun a b => key a ≤ key b :=
    ⟨fun _ _ _ hab hbc => le_trans hab hbc⟩
  exact List.sorted_insertionSort _ l

theorem getOrderedTasks_ok_eq {tc : TaskCollection} {ts : List Task}
    (hok : getOrderedTasks tc = .ok ts) :
    ts = sortByKey taskSortKey (annotateCriticalPaths tc) ∧
    ∃ checked, checkForCyclicDependencies tc (tc.length + 1)
      (tc.map Task.name) [] [] = .ok checked := by
  unfold getOrderedTasks at hok
  cases hr : checkForCyclicDependencies tc (tc.length + 1)
      (tc.map Task.name) [] [] with
  | error e => rw [hr] at hok; exact absurd hok (by simp)
  | ok checked =>
    rw [hr] at hok
    injection hok with h
    exact ⟨h.symm, checked, rfl⟩

/-- Counterexample to C3 as stated: two tasks registered in the order `b`,
`a` have equal critical-path lengths, yet `getOrderedTasks` returns them in
registration order `[b, a]`, not in lexicographic name order. -/
theorem getOrderedTasks_tie_break_counterexample :
    getOrderedTasks tieTC = .ok tieOut ∧
    tieOut.map Task.name = ["b", "a"] ∧
    tieOut.map cplValue = [0, 0] ∧
    ¬nameTieBreakOrdered tieOut := by
  exact ⟨by decide, by decide, by decide, by decide⟩

/-- C3 amended: the list returned by `getOrderedTasks` is sorted by
descending critical-path length, and tasks with equal critical-path length
appear in registration order (the sort is stable) — not in lexicographic
name order. -/
theorem getOrderedTasks_sorted_stable (tc : TaskCollection) (ts : List Task)
    (hok : getOrderedTasks tc = .ok ts) :
    ts.Pairwise (fun a b => cplValue b ≤ cplValue a) ∧
    ∀ k : Nat,
      (ts.filter fun t => t.criticalPathLength == some k).map Task.name =
        (tc.filter fun t =>
          calculateCriticalPaths tc (tc.length + 1) t.name == some k).map Task.name := by
  obtain ⟨hts, -⟩ := getOrderedTasks_ok_eq hok
  subst hts
  constructor
  · refine (sortByKey_sorted taskSortKey (annotateCriticalPaths tc)).imp ?_
    intro a b h
    unfold taskSortKey at h
    unfold cplValue
    omega
  · intro k
    have hq : ∀ a b : Task, (a.criticalPathLength == some k) = true →
        (b.criticalPathLength == some k) = true → taskSortKey a ≤ taskSortKey b := by
      intro a b ha hb
      rw [beq_iff_eq] at ha hb
      unfold taskSortKey
      rw [ha, hb]
    rw [show sortByKey taskSortKey (annotateCriticalPaths tc)
        = (annotateCriticalPaths tc).insertionSort
            (fun a b => taskSortKey a ≤ taskSortKey b) from rfl]
    rw [filter_insertionSort _ _ hq]
    unfold annotateCriticalPaths
    rw [List.filter_map, List.map_map]
    rfl

/-- Witness for the amended C3 at `tieTC`. -/
theorem getOrderedTasks_sorted_stable_witness :
    tieOut.Pairwise (fun a b => cplValue b ≤ cplValue a) ∧
    ∀ k : Nat,
      (tieOut.filter fun t => t.criticalPathLength == some k).map Task.name =
        (tieTC.filter fun t =>
          calculateCriticalPaths tieTC (tieTC.length + 1) t.name ==
            some k).map Task.name :=
  getOrderedTasks_sorted_stable tieTC tieOut (by decide)

/-!
## Critical-path lengths: `_calculateCriticalPaths` satisfies its recursion
-/

theorem calcCPL_zero (tc : TaskCollection) (name : String) :
    calculateCriticalPaths tc 0 name = none := rfl

theorem calcCPL_succ (tc : TaskCollection) (f : Nat) (name : String) :
    calculateCriticalPaths tc (f + 1) name =
      (if (dependentsOf tc name).isEmpty then some 0
       else
        match criticalPathsOfList (calculateCriticalPaths tc f)
            (dependentsOf tc name) with
        | none => none
        | some lengths => some (lengths.foldl Nat.max 0 + 1)) := rfl

theorem criticalPathsOfList_some {g : String → Option Nat} :
    ∀ {l : List String} {ls : List Nat}, criticalPathsOfList g l = some ls →
      ls = l.map (fun d => (g d).getD 0) ∧ ∀ d ∈ l, (g d).isSome = true := by
  intro l
  induction l with
  | nil =>
    intro ls h
    injection h with h
    subst h
    exact ⟨rfl, by simp⟩
  | cons d rest ih =>
    intro ls h
    unfold criticalPathsOfList at h
    cases hg : g d <;> cases hr : criticalPathsOfList g rest <;>
      rw [hg, hr] at h
    · exact absurd h (by simp)
    · exact absurd h (by simp)
    · exact absurd h (by simp)
    · next n ns =>
      injection h with h
      subst h
      obtain ⟨h1, h2⟩ := ih hr
      constructor
      · rw [List.map_cons, hg, ← h1]
        rfl
      · intro x hx
        rcases List.mem_cons.mp hx with rfl | hx'
        · rw [hg]; rfl
        · exact h2 x hx'

theorem criticalPathsOfList_none {g : String → Option Nat} :
    ∀ {l : List String}, criticalPathsOfList g l = none → ∃ d ∈ l, g d = none := by
  intro l
  induction l with
  | nil => intro h; exact absurd h (by simp [criticalPathsOfList])
  | cons d rest ih =>
    intro h
    unfold criticalPathsOfList at h
    cases hg : g d <;> cases hr : criticalPathsOfList g rest <;> rw [hg, hr] at h
    · exact ⟨d, by simp, hg⟩
    · exact ⟨d, by simp, hg⟩
    · obtain ⟨d', hd', hg'⟩ := ih hr
      exact ⟨d', List.mem_cons_of_mem d hd', hg'⟩
    · exact absurd h (by simp)

theorem criticalPathsOfList_mono {g g' : String → Option Nat}
    (hgg : ∀ d n, g d = some n → g' d = some n) :
    ∀ {l : List String} {ls : List Nat},
      criticalPathsOfList g l = some ls → criticalPathsOfList g' l = some ls := by
  intro l
  induction l with
  | nil => intro ls h; exact h
  | cons d rest ih =>
    intro ls h
    unfold criticalPathsOfList at h ⊢
    cases hg : g d <;> cases hr : criticalPathsOfList g rest <;> rw [hg, hr] at h
    · exact absurd h (by simp)
    · exact absurd h (by simp)
    · exact absurd h (by simp)
    · next n ns =>
      rw [hgg d n hg, ih hr]
      exact h

theorem calculateCriticalPaths_mono (tc : TaskCollection) :
    ∀ (fuel : Nat) (name : String) (n : Nat),
      calculateCriticalPaths tc fuel name = some n →
      calculateCriticalPaths tc (fuel + 1) name = some n := by
  intro fuel
  induction fuel with
  | zero => intro name n h; exact absurd h (by simp [calcCPL_zero])
  | succ f ih =>
    intro name n h
    rw [calcCPL_succ] at h ⊢
    by_cases hemp : (dependentsOf tc name).isEmpty
    · rw [if_pos hemp] at h ⊢
      exact h
    · rw [if_neg hemp] at h ⊢
      cases hml : criticalPathsOfList (calculateCriticalPaths tc f)
          (dependentsOf tc name) with
      | none => rw [hml] at h; exact absurd h (by simp)
      | some ls =>
        rw [hml] at h
        rw [criticalPathsOfList_mono (fun d m hm => ih d m hm) hml]
        exact h

theorem calcCPL_none_chain (tc : TaskCollection) (hwf : WellFormed tc) :
    ∀ (fuel : Nat) (name : String),
      calculateCriticalPaths tc fuel name = none →
      ∃ l : List String, l.length = fuel ∧ List.Chain (depEdge tc) name l ∧
        ∀ x ∈ l, x ∈ namesOf tc := by
  intro fuel
  induction fuel with
  | zero => intro name _; exact ⟨[], rfl, List.Chain.nil, by simp⟩
  | succ f ih =>
    intro name h
    rw [calcCPL_succ] at h
    by_cases hemp : (dependentsOf tc name).isEmpty
    · rw [if_pos hemp] at h; exact absurd h (by simp)
    · rw [if_neg hemp] at h
      cases hml : criticalPathsOfList (calculateCriticalPaths tc f)
          (dependentsOf tc name) with
      | some ls => rw [hml] at h; exact absurd h (by simp)
      | none =>
        obtain ⟨d, hd, hdn⟩ := criticalPathsOfList_none hml
        obtain ⟨l, hlen, hchain, hmem⟩ := ih d hdn
        refine ⟨d :: l, by simp [hlen], List.chain_cons.mpr ⟨hd, hchain⟩, ?_⟩
        intro x hx
        rcases List.mem_cons.mp hx with rfl | hx'
        · exact dependentsOf_subset_names hwf hd
        · exact hmem x hx'

theorem chain_transGen {R : String → String → Prop} :
    ∀ {l : List String} {a b : String}, List.Chain R a l → b ∈ l →
      Relation.TransGen R a b := by
  intro l
  induction l with
  | nil => intro a b _ hb; exact absurd hb (by simp)
  | cons c l ih =>
    intro a b hchain hb
    obtain ⟨hac, hcl⟩ := List.chain_cons.mp hchain
    rcases List.mem_cons.mp hb with rfl | hb'
    · exact Relation.TransGen.single hac
    · exact Relation.TransGen.head hac (ih hcl hb')

theorem chain_dup_cycle {R : String → String → Prop} :
    ∀ {l : List String} {a : String}, List.Chain R a l → ¬(a :: l).Nodup →
      ∃ v, Relation.TransGen R v v := by
  intro l
  induction l with
  | nil => intro a _ hnd; exact absurd (by simp) hnd
  | cons c l ih =>
    intro a hchain hnd
    obtain ⟨hac, hcl⟩ := List.chain_cons.mp hchain
    by_cases ha : a ∈ c :: l
    · exact ⟨a, chain_transGen hchain ha⟩
    · refine ih hcl fun hnod => hnd ?_
      rw [List.nodup_cons]
      exact ⟨ha, hnod⟩

theorem calcCPL_isSome (tc : TaskCollection) (hwf : WellFormed tc)
    (hacyc : ∀ v, ¬Relation.TransGen (depEdge tc) v v)
    {name : String} (hname : name ∈ namesOf tc) :
    (calculateCriticalPaths tc (tc.length + 1) name).isSome = true := by
  cases hc : calculateCriticalPaths tc (tc.length + 1) name with
  | some n => rfl
  | none =>
    exfalso
    obtain ⟨l, hlen, hchain, hmem⟩ := calcCPL_none_chain tc hwf (tc.length + 1) name hc
    have hnd : (name :: l).Nodup := by
      by_contra hnd
      obtain ⟨v, hv⟩ := chain_dup_cycle hchain hnd
      exact hacyc v hv
    have hsub : (name :: l) ⊆ (namesOf tc).dedup := by
      intro x hx
      rcases List.mem_cons.mp hx with rfl | hx'
      · exact List.mem_dedup.mpr hname
      · exact List.mem_dedup.mpr (hmem x hx')
    have hle := (List.subperm_of_subset hnd hsub).length_le
    have h2 : (namesOf tc).dedup.length ≤ (namesOf tc).length :=
      (List.dedup_sublist _).length_le
    have h3 : (namesOf tc).length = tc.length := List.length_map tc Task.name
    simp only [List.length_cons, hlen] at hle
    omega

theorem mem_getOrderedTasks_ok {tc : TaskCollection} {ts : List Task}
    {task : Task} (hok : getOrderedTasks tc = .ok ts) (ht : task ∈ ts) :
    task.criticalPathLength = calculateCriticalPaths tc (tc.length + 1) task.name ∧
    task.name ∈ namesOf tc := by
  obtain ⟨hts, -⟩ := getOrderedTasks_ok_eq hok
  subst hts
  have hperm := List.perm_insertionSort
    (fun a b => taskSortKey a ≤ taskSortKey b) (annotateCriticalPaths tc)
  have ht' : task ∈ annotateCriticalPaths tc := hperm.mem_iff.mp ht
  obtain ⟨t0, ht0, rfl⟩ := List.mem_map.mp ht'
  refine ⟨rfl, ?_⟩
  show t0.name ∈ tc.map Task.name
  exact List.mem_map_of_mem Task.name ht0

theorem cplOfName_getOrderedTasks {tc : TaskCollection} {ts : List Task}
    (hok : getOrderedTasks tc = .ok ts) {d : String} (hd : d ∈ namesOf tc) :
    (∃ dt ∈ ts, dt.name = d ∧
      dt.criticalPathLength = calculateCriticalPaths tc (tc.length + 1) d) ∧
    cplOfName ts d = (calculateCriticalPaths tc (tc.length + 1) d).getD 0 := by
  obtain ⟨hts, -⟩ := getOrderedTasks_ok_eq hok
  subst hts
  have hperm := List.perm_insertionSort
    (fun a b => taskSortKey a ≤ taskSortKey b) (annotateCriticalPaths tc)
  obtain ⟨t0, ht0, hname⟩ := List.mem_map.mp hd
  have hmem : ({ t0 with criticalPathLength :=
      calculateCriticalPaths tc (tc.length + 1) t0.name } : Task)
      ∈ annotateCriticalPaths tc := List.mem_map_of_mem _ ht0
  have hmem' : ({ t0 with criticalPathLength :=
      calculateCriticalPaths tc (tc.length + 1) t0.name } : Task)
      ∈ sortByKey taskSortKey (annotateCriticalPaths tc) := hperm.mem_iff.mpr hmem
  constructor
  · refine ⟨_, hmem', hname, ?_⟩
    show calculateCriticalPaths tc (tc.length + 1) t0.name
      = calculateCriticalPaths tc (tc.length + 1) d
    rw [hname]
  · unfold cplOfName
    have hfs : (List.find? (fun t => t.name == d)
        (sortByKey taskSortKey (annotateCriticalPaths tc))).isSome = true :=
      List.find?_isSome.mpr ⟨_, hmem', by simp [hname]⟩
    obtain ⟨dt, hfind⟩ := Option.isSome_iff_exists.mp hfs
    rw [hfind]
    have hdt_name : dt.name = d := by simpa using List.find?_some hfind
    have hdt_mem : dt ∈ annotateCriticalPaths tc :=
      hperm.mem_iff.mp (List.mem_of_find?_eq_some hfind)
    obtain ⟨t1, ht1, hdt_eq⟩ := List.mem_map.mp hdt_mem
    rw [← hdt_eq]
    have ht1name : t1.name = d := by rw [← hdt_name, ← hdt_eq]
    show (calculateCriticalPaths tc (tc.length + 1) t1.name).getD 0
      = (calculateCriticalPaths tc (tc.length + 1) d).getD 0
    rw [ht1name]

/-- C2: after `getOrderedTasks` succeeds on a well-formed collection, every
returned task's stored critical-path length is defined and satisfies the
recursive definition: `0` for a task with no dependents, otherwise one plus
the maximum of its dependents' stored critical-path lengths, every dependent
appearing in the returned list with a defined length. -/
theorem criticalPathLength_recursion (tc : TaskCollection) (hwf : WellFormed tc)
    (ts : List Task) (hok : getOrderedTasks tc = .ok ts) :
    ∀ task ∈ ts, ∃ n, task.criticalPathLength = some n ∧
      (dependentsOf tc task.name = [] → n = 0) ∧
      (dependentsOf tc task.name ≠ [] →
        (∀ d ∈ dependentsOf tc task.name, ∃ dt ∈ ts, dt.name = d ∧
          dt.criticalPathLength.isSome = true) ∧
        n = ((dependentsOf tc task.name).map (cplOfName ts)).foldl Nat.max 0 + 1) := by
  intro task ht
  obtain ⟨hcpl, hname⟩ := mem_getOrderedTasks_ok hok ht
  have hacyc : ∀ v, ¬Relation.TransGen (depEdge tc) v v := by
    obtain ⟨-, checked, hr⟩ := getOrderedTasks_ok_eq hok
    exact acyclic_of_check_ok hr
  have hsome := calcCPL_isSome tc hwf hacyc hname
  obtain ⟨n, hn⟩ := Option.isSome_iff_exists.mp hsome
  refine ⟨n, by rw [hcpl, hn], ?_, ?_⟩
  · intro hdeps
    rw [calcCPL_succ, if_pos (by rw [hdeps]; rfl)] at hn
    injection hn with hn
    exact hn.symm
  · intro hdeps
    rw [calcCPL_succ, if_neg (by simpa using hdeps)] at hn
    cases hml : criticalPathsOfList (calculateCriticalPaths tc tc.length)
        (dependentsOf tc task.name) with
    | none => rw [hml] at hn; exact absurd hn (by simp)
    | some ls =>
      rw [hml] at hn
      obtain ⟨hls, hallsome⟩ := criticalPathsOfList_some hml
      injection hn with hn
      have hvals : ∀ d ∈ dependentsOf tc task.name,
          calculateCriticalPaths tc (tc.length + 1) d
            = calculateCriticalPaths tc tc.length d ∧
          (calculateCriticalPaths tc (tc.length + 1) d).isSome = true := by
        intro d hd
        obtain ⟨m, hm⟩ := Option.isSome_iff_exists.mp (hallsome d hd)
        have hm' := calculateCriticalPaths_mono tc tc.length d m hm
        exact ⟨by rw [hm, hm'], by rw [hm']; rfl⟩
      constructor
      · intro d hd
        have hdname : d ∈ namesOf tc := dependentsOf_subset_names hwf hd
        obtain ⟨⟨dt, hdt, hdtn, hdtc⟩, -⟩ := cplOfName_getOrderedTasks hok hdname
        refine ⟨dt, hdt, hdtn, ?_⟩
        rw [hdtc]
        exact (hvals d hd).2
      · rw [← hn]
        have hmap : ls = (dependentsOf tc task.name).map (cplOfName ts) := by
          rw [hls]
          apply List.map_congr_left
          intro d hd
          obtain ⟨-, heq⟩ := cplOfName_getOrderedTasks hok
            (dependentsOf_subset_names hwf hd)
          rw [heq, (hvals d hd).1]
        rw [hmap]

/-- Witness for C2 at the spec's linear chain `A ← B ← C`: the lengths are
`A = 2`, `B = 1`, `C = 0` and every stored length satisfies the recursion. -/
theorem criticalPathLength_recursion_witness :
    WellFormed chainTC ∧
    getOrderedTasks chainTC = .ok chainOut ∧
    chainOut.map Task.criticalPathLength = [some 2, some 1, some 0] ∧
    chainOut.map Task.name = ["A", "B", "C"] ∧
    (∀ task ∈ chainOut, ∃ n, task.criticalPathLength = some n ∧
      (dependentsOf chainTC task.name = [] → n = 0) ∧
      (dependentsOf chainTC task.name ≠ [] →
        (∀ d ∈ dependentsOf chainTC task.name, ∃ dt ∈ chainOut, dt.name = d ∧
          dt.criticalPathLength.isSome = true) ∧
        n = ((dependentsOf chainTC task.name).map
          (cplOfName chainOut)).foldl Nat.max 0 + 1)) :=
  ⟨by decide, by decide, by decide, by decide,
    criticalPathLength_recursion chainTC (by decide) chainOut (by decide)⟩

/-!
## The task selector: closure collection and task registration
-/

theorem collectClosure_nil (nbr : String → List String) (fuel : Nat)
    (result : List String) :
    collectClosure nbr fuel [] result = some result := by
  cases fuel <;> rfl

theorem collectClosure_cons_zero (nbr : String → List String) (p : String)
    (rest result : List String) :
    collectClosure nbr 0 (p :: rest) result =
      if p ∈ result then collectClosure nbr 0 rest result else none := rfl

theorem collectClosure_cons_succ (nbr : String → List String) (f : Nat)
    (p : String) (rest result : List String) :
    collectClosure nbr (f + 1) (p :: rest) result =
      if p ∈ result then collectClosure nbr (f + 1) rest result
      else
        match collectClosure nbr f (nbr p) (result ++ [p]) with
        | none => none
        | some r => collectClosure nbr (f + 1) rest r := rfl

theorem collectClosure_subset (nbr : String → List String) :
    ∀ (fuel : Nat) (worklist result r : List String),
      collectClosure nbr fuel worklist result = some r → result ⊆ r := by
  intro fuel
  induction fuel with
  | zero =>
    intro worklist
    induction worklist with
    | nil =>
      intro result r h
      rw [collectClosure_nil] at h
      injection h with h
      exact h ▸ List.Subset.refl _
    | cons p rest ih =>
      intro result r h
      rw [collectClosure_cons_zero] at h
      by_cases hp : p ∈ result
      · rw [if_pos hp] at h; exact ih result r h
      · rw [if_neg hp] at h; exact absurd h (by simp)
  | succ f ihf =>
    intro worklist
    induction worklist with
    | nil =>
      intro result r h
      rw [collectClosure_nil] at h
      injection h with h
      exact h ▸ List.Subset.refl _
    | cons p rest ih =>
      intro result r h
      rw [collectClosure_cons_succ] at h
      by_cases hp : p ∈ result
      · rw [if_pos hp] at h; exact ih result r h
      · rw [if_neg hp] at h
        cases hinner : collectClosure nbr f (nbr p) (result ++ [p]) with
        | none => rw [hinner] at h; exact absurd h (by simp)
        | some r1 =>
          rw [hinner] at h
          have h1 : (result ++ [p]) ⊆ r1 := ihf (nbr p) (result ++ [p]) r1 hinner
          have h2 : r1 ⊆ r := ih r1 r h
          exact fun x hx => h2 (h1 (List.mem_append.mpr (Or.inl hx)))

theorem unvisitedCount_le_of_subset (names : List String)
    {result result' : List String} (h : result ⊆ result') :
    unvisitedCount names result' ≤ unvisitedCount names result := by
  unfold unvisitedCount
  refine length_filter_mono _ _ ?_ _
  intro x hx
  simp only [decide_eq_true_eq] at hx ⊢
  exact fun hmem => hx (h hmem)

theorem unvisitedCount_append_lt (names : List String) {t : String}
    {result : List String} (h1 : t ∈ names) (h2 : t ∉ result) :
    unvisitedCount names (result ++ [t]) < unvisitedCount names result := by
  unfold unvisitedCount
  have hsplit : (names.dedup.filter fun n => decide (n ∉ result ++ [t]))
      = (names.dedup.filter fun n => decide (n ∉ result)).filter
          fun n => decide (n ≠ t) := by
    rw [List.filter_filter]
    apply List.filter_congr
    intro x _
    by_cases hxt : x = t <;> by_cases hxc : x ∈ result <;>
      simp [hxt, hxc, List.mem_append]
  rw [hsplit]
  apply List.length_filter_lt_length_iff_exists.mpr
  refine ⟨t, ?_, by simp⟩
  rw [List.mem_filter]
  exact ⟨List.mem_dedup.mpr h1, by simpa using h2⟩

theorem collectClosure_ne_none (nbr : String → List String)
    (names : List String) (hnbr : ∀ x, ∀ y ∈ nbr x, y ∈ names) :
    ∀ (fuel : Nat) (worklist result : List String),
      (∀ w ∈ worklist, w ∈ names) →
      unvisitedCount names result < fuel →
      collectClosure nbr fuel worklist result ≠ none := by
  intro fuel
  induction fuel with
  | zero => intro worklist result _ hcount; omega
  | succ f ihf =>
    intro worklist
    induction worklist with
    | nil =>
      intro result _ _
      rw [collectClosure_nil]
      simp
    | cons p rest ih =>
      intro result hsub hcount
      rw [collectClosure_cons_succ]
      by_cases hp : p ∈ result
      · rw [if_pos hp]
        exact ih result (fun w hw => hsub w (List.mem_cons_of_mem p hw)) hcount
      · rw [if_neg hp]
        have hpname : p ∈ names := hsub p (List.mem_cons_self p rest)
        have hlt : unvisitedCount names (result ++ [p]) < f := by
          have := unvisitedCount_append_lt names hpname hp
          omega
        cases hinner : collectClosure nbr f (nbr p) (result ++ [p]) with
        | none => exact absurd hinner (ihf (nbr p) (result ++ [p]) (hnbr p) hlt)
        | some r1 =>
          have hsub1 : (result ++ [p]) ⊆ r1 :=
            collectClosure_subset nbr f _ _ _ hinner
          have hcount1 : unvisitedCount names r1 < f + 1 := by
            have hle := unvisitedCount_le_of_subset names
              (fun x hx => hsub1 (List.mem_append.mpr (Or.inl hx)))
            have := unvisitedCount_append_lt names hpname hp
            omega
          exact ih r1 (fun w hw => hsub w (List.mem_cons_of_mem p hw)) hcount1

theorem collectClosure_sound (nbr : String → List String) (P : String → Prop)
    (hP : ∀ x, P x → ∀ y ∈ nbr x, P y) :
    ∀ (fuel : Nat) (worklist result r : List String),
      collectClosure nbr fuel worklist result = some r →
      (∀ w ∈ worklist, P w) → (∀ x ∈ result, P x) → ∀ x ∈ r, P x := by
  intro fuel
  induction fuel with
  | zero =>
    intro worklist
    induction worklist with
    | nil =>
      intro result r h _ hres
      rw [collectClosure_nil] at h
      injection h with h
      exact h ▸ hres
    | cons p rest ih =>
      intro result r h hwl hres
      rw [collectClosure_cons_zero] at h
      by_cases hp : p ∈ result
      · rw [if_pos hp] at h
        exact ih result r h (fun w hw => hwl w (List.mem_cons_of_mem p hw)) hres
      · rw [if_neg hp] at h; exact absurd h (by simp)
  | succ f ihf =>
    intro worklist
    induction worklist with
    | nil =>
      intro result r h _ hres
      rw [collectClosure_nil] at h
      injection h with h
      exact h ▸ hres
    | cons p rest ih =>
      intro result r h hwl hres
      rw [collectClosure_cons_succ] at h
      by_cases hp : p ∈ result
      · rw [if_pos hp] at h
        exact ih result r h (fun w hw => hwl w (List.mem_cons_of_mem p hw)) hres
      · rw [if_neg hp] at h
        cases hinner : collectClosure nbr f (nbr p) (result ++ [p]) with
        | none => rw [hinner] at h; exact absurd h (by simp)
        | some r1 =>
          rw [hinner] at h
          have hPp : P p := hwl p (List.mem_cons_self p rest)
          have hres1 : ∀ x ∈ r1, P x := by
            refine ihf (nbr p) (result ++ [p]) r1 hinner (hP p hPp) ?_
            intro x hx
            rcases List.mem_append.mp hx with hx | hx
            · exact hres x hx
            · rw [List.mem_singleton.mp hx]; exact hPp
          exact ih r1 r h (fun w hw => hwl w (List.mem_cons_of_mem p hw)) hres1

theorem collectClosure_complete (nbr : String → List String) :
    ∀ (fuel : Nat) (worklist result r : List String),
      collectClosure nbr fuel worklist result = some r →
      (∀ w ∈ worklist, w ∈ r) ∧
      (∀ x ∈ r, x ∉ result → ∀ y ∈ nbr x, y ∈ r) := by
  intro fuel
  induction fuel with
  | zero =>
    intro worklist
    induction worklist with
    | nil =>
      intro result r h
      rw [collectClosure_nil] at h
      injection h with h
      subst h
      exact ⟨fun w hw => absurd hw (by simp), fun x hx hnx => absurd hx hnx⟩
    | cons p rest ih =>
      intro result r h
      rw [collectClosure_cons_zero] at h
      by_cases hp : p ∈ result
      · rw [if_pos hp] at h
        obtain ⟨h1, h2⟩ := ih result r h
        have hsub := collectClosure_subset nbr 0 rest result r h
        refine ⟨fun w hw => ?_, h2⟩
        rcases List.mem_cons.mp hw with rfl | hw'
        · exact hsub hp
        · exact h1 w hw'
      · rw [if_neg hp] at h; exact absurd h (by simp)
  | succ f ihf =>
    intro worklist
    induction worklist with
    | nil =>
      intro result r h
      rw [collectClosure_nil] at h
      injection h with h
      subst h
      exact ⟨fun w hw => absurd hw (by simp), fun x hx hnx => absurd hx hnx⟩
    | cons p rest ih =>
      intro result r h
      rw [collectClosure_cons_succ] at h
      by_cases hp : p ∈ result
      · rw [if_pos hp] at h
        obtain ⟨h1, h2⟩ := ih result r h
        have hsub := collectClosure_subset nbr (f + 1) rest result r h
        refine ⟨fun w hw => ?_, h2⟩
        rcases List.mem_cons.mp hw with rfl | hw'
        · exact hsub hp
        · exact h1 w hw'
      · rw [if_neg hp] at h
        cases hinner : collectClosure nbr f (nbr p) (result ++ [p]) with
        | none => rw [hinner] at h; exact absurd h (by simp)
        | some r1 =>
          rw [hinner] at h
          obtain ⟨hin1, hin2⟩ := ihf (nbr p) (result ++ [p]) r1 hinner
          obtain ⟨h1, h2⟩ := ih r1 r h
          have hsub1 : (result ++ [p]) ⊆ r1 :=
            collectClosure_subset nbr f _ _ _ hinner
          have hsub2 : r1 ⊆ r := collectClosure_subset nbr (f + 1) rest r1 r h
          have hpr : p ∈ r := hsub2 (hsub1 (List.mem_append.mpr (Or.inr (by simp))))
          refine ⟨fun w hw => ?_, fun x hx hnx => ?_⟩
          · rcases List.mem_cons.mp hw with rfl | hw'
            · exact hpr
            · exact h1 w hw'
          · by_cases hx1 : x ∈ r1
            · by_cases hxp : x = p
              · subst hxp
                exact fun y hy => hsub2 (hin1 y hy)
              · have hnx1 : x ∉ result ++ [p] := by
                  intro hc
                  rcases List.mem_append.mp hc with hc | hc
                  · exact hnx hc
                  · exact hxp (List.mem_singleton.mp hc)
                exact fun y hy => hsub2 (hin2 x hx1 hnx1 y hy)
            · exact h2 x hx hx1

theorem collectClosure_mem_iff (nbr : String → List String)
    {fuel : Nat} {roots r : List String}
    (h : collectClosure nbr fuel roots [] = some r) :
    ∀ x, x ∈ r ↔
      ∃ t ∈ roots, Relation.ReflTransGen (fun a b => b ∈ nbr a) t x := by
  intro x
  constructor
  · intro hx
    refine collectClosure_sound nbr
      (fun z => ∃ t ∈ roots, Relation.ReflTransGen (fun a b => b ∈ nbr a) t z)
      ?_ fuel roots [] r h (fun w hw => ⟨w, hw, Relation.ReflTransGen.refl⟩)
      (by simp) x hx
    rintro z ⟨t, ht, hrz⟩ y hy
    exact ⟨t, ht, hrz.tail hy⟩
  · rintro ⟨t, ht, hreach⟩
    obtain ⟨h1, h2⟩ := collectClosure_complete nbr fuel roots [] r h
    have hclosed : ∀ v, v ∈ r → ∀ w ∈ nbr v, w ∈ r :=
      fun v hv => h2 v hv (by simp)
    induction hreach with
    | refl => exact h1 t ht
    | tail _ hbc ih => exact hclosed _ ih _ hbc

theorem lookupProject_none_iff {cfg : List RushProject} {name : String} :
    lookupProject cfg name = none ↔ name ∉ cfg.map RushProject.packageName := by
  unfold lookupProject
  rw [List.find?_eq_none]
  constructor
  · intro h hmem
    obtain ⟨p, hp, hpn⟩ := List.mem_map.mp hmem
    exact h p hp (by simp [hpn])
  · intro h p hp hbeq
    exact h ((beq_iff_eq.mp hbeq) ▸ List.mem_map_of_mem RushProject.packageName hp)

theorem localDepsOf_subset {cfg : List RushProject} (hwf : ConfigWellFormed cfg) :
    ∀ x, ∀ y ∈ localDepsOf cfg x, y ∈ cfg.map RushProject.packageName := by
  intro x y hy
  unfold localDepsOf at hy
  cases hl : lookupProject cfg x with
  | none => rw [hl] at hy; exact absurd hy (by simp)
  | some p =>
    rw [hl] at hy
    exact hwf p (List.mem_of_find?_eq_some hl) y hy

theorem dependentProjectsOf_subset (cfg : List RushProject) :
    ∀ x, ∀ y ∈ dependentProjectsOf cfg x, y ∈ cfg.map RushProject.packageName := by
  intro x y hy
  unfold dependentProjectsOf at hy
  obtain ⟨q, hq, hqy⟩ := List.mem_map.mp hy
  exact hqy ▸ List.mem_map_of_mem RushProject.packageName (List.mem_filter.mp hq).1

theorem unvisitedCount_nil_le (names : List String) :
    unvisitedCount names [] ≤ names.length := by
  have h1 : unvisitedCount names [] ≤ names.dedup.length :=
    List.length_filter_le _ _
  have h2 : names.dedup.length ≤ names.length := (List.dedup_sublist _).length_le
  omega

theorem hasTask_append_task (tc : TaskCollection) (task : Task) (n : String) :
    hasTask (tc ++ [task]) n = (hasTask tc n || task.name == n) := by
  unfold hasTask findTask
  rw [List.find?_append]
  cases tc.find? (fun t => t.name == n) with
  | some t => rfl
  | none =>
    show (List.find? (fun t => t.name == n) [task]).isSome = (false || (task.name == n))
    cases hb : task.name == n <;> simp [List.find?_cons, hb]

theorem registerTask_ok (opts : SelectorOptions)
    (hscript : ∀ p ∈ opts.projects,
      p.hasScript = true ∨ opts.ignoreMissingScript = true)
    (tc : TaskCollection) (name : String) :
    ∃ tc', registerTask opts tc name = .ok tc' ∧
      ∀ n, hasTask tc' n = true ↔
        (hasTask tc n = true ∨
          (n = name ∧ name ∈ opts.projects.map RushProject.packageName)) := by
  unfold registerTask
  cases hl : lookupProject opts.projects name with
  | none =>
    refine ⟨tc, rfl, fun n => ?_⟩
    have hnm := lookupProject_none_iff.mp hl
    constructor
    · exact Or.inl
    · rintro (h | ⟨rfl, hmem⟩)
      · exact h
      · exact absurd hmem hnm
  | some proj =>
    dsimp only
    have hpmem : proj ∈ opts.projects := List.mem_of_find?_eq_some hl
    have hmem : name ∈ opts.projects.map RushProject.packageName := by
      have hpn : proj.packageName = name := by simpa using List.find?_some hl
      exact hpn ▸ List.mem_map_of_mem RushProject.packageName hpmem
    by_cases hht : hasTask tc name = true
    · rw [if_pos hht]
      refine ⟨tc, rfl, fun n => ?_⟩
      constructor
      · exact Or.inl
      · rintro (h | ⟨rfl, _⟩)
        · exact h
        · exact hht
    · rw [if_neg hht]
      have hnoerr : (!proj.hasScript && !opts.ignoreMissingScript) = false := by
        rcases hscript proj hpmem with h | h <;> simp [h]
      rw [if_neg (by simp [hnoerr])]
      unfold addTask
      rw [if_neg hht]
      refine ⟨_, rfl, fun n => ?_⟩
      rw [hasTask_append_task, Bool.or_eq_true, beq_iff_eq]
      show _ ↔ _
      constructor
      · rintro (h | rfl)
        · exact Or.inl h
        · exact Or.inr ⟨rfl, hmem⟩
      · rintro (h | ⟨rfl, _⟩)
        · exact Or.inl h
        · exact Or.inr rfl

theorem registerTaskList_ok (opts : SelectorOptions)
    (hscript : ∀ p ∈ opts.projects,
      p.hasScript = true ∨ opts.ignoreMissingScript = true) :
    ∀ (list : List String) (tc : TaskCollection),
      ∃ tc', registerTaskList opts tc list = .ok tc' ∧
        ∀ n, hasTask tc' n = true ↔
          (hasTask tc n = true ∨
            (n ∈ list ∧ n ∈ opts.projects.map RushProject.packageName)) := by
  intro list
  induction list with
  | nil => intro tc; exact ⟨tc, rfl, fun n => by simp⟩
  | cons p rest ih =>
    intro tc
    obtain ⟨tc1, h1, hch1⟩ := registerTask_ok opts hscript tc p
    obtain ⟨tc2, h2, hch2⟩ := ih tc1
    refine ⟨tc2, ?_, fun n => ?_⟩
    · show (match registerTask opts tc p with
        | Except.error e => Except.error e
        | Except.ok tcx => registerTaskList opts tcx rest) = Except.ok tc2
      rw [h1]
      exact h2
    · rw [hch2, hch1]
      constructor
      · rintro ((h | ⟨rfl, hm⟩) | ⟨hr, hm⟩)
        · exact Or.inl h
        · exact Or.inr ⟨by simp, hm⟩
        · exact Or.inr ⟨List.mem_cons_of_mem p hr, hm⟩
      · rintro (h | ⟨hm, hn⟩)
        · exact Or.inl (Or.inl h)
        · rcases List.mem_cons.mp hm with rfl | hr
          · exact Or.inl (Or.inr ⟨rfl, hn⟩)
          · exact Or.inr ⟨hr, hn⟩

theorem addDependenciesLoop_ok (taskName : String) :
    ∀ (deps : List String) (tc : TaskCollection),
      (∀ d ∈ deps, hasTask tc d = true) →
      addDependenciesLoop taskName tc deps = (linkAll tc taskName deps, none) := by
  intro deps
  induction deps with
  | nil => intro tc _; rfl
  | cons d rest ih =>
    intro tc h
    have hd := h d (by simp)
    show addDependenciesLoop taskName tc (d :: rest) = _
    unfold addDependenciesLoop
    rw [hd]
    simp only [if_true]
    exact ih (linkDependency tc taskName d)
      (fun d' hd' => by rw [hasTask_linkDependency]; exact h d' (by simp [hd']))

theorem addDependencies_ok {tc : TaskCollection} {name : String}
    {deps : List String} (hname : hasTask tc name = true)
    (hdeps : ∀ d ∈ deps, hasTask tc d = true) :
    addDependencies tc name deps = (linkAll tc name deps, none) := by
  unfold addDependencies
  rw [if_pos hname]
  exact addDependenciesLoop_ok name deps tc hdeps

theorem addDependenciesList_ok :
    ∀ (items : List (String × List String)) (tc : TaskCollection),
      (∀ it ∈ items, hasTask tc it.1 = true ∧ ∀ d ∈ it.2, hasTask tc d = true) →
      ∃ tc', addDependenciesList tc items = .ok tc' ∧
        ∀ n, hasTask tc' n = hasTask tc n := by
  intro items
  induction items with
  | nil => intro tc _; exact ⟨tc, rfl, fun n => rfl⟩
  | cons it rest ih =>
    intro tc h
    obtain ⟨h1, h2⟩ := h it (by simp)
    obtain ⟨nm, deps⟩ := it
    obtain ⟨tc', hok, hch⟩ := ih (linkAll tc nm deps) (by
      intro it' hit'
      obtain ⟨ha, hb⟩ := h it' (List.mem_cons_of_mem _ hit')
      refine ⟨?_, fun d hd => ?_⟩
      · rw [hasTask_linkAll]; exact ha
      · rw [hasTask_linkAll]; exact hb d hd)
    refine ⟨tc', ?_, fun n => ?_⟩
    · show (match addDependencies tc nm deps with
        | (tcx, none) => addDependenciesList tcx rest
        | (_, some e) => Except.error (SelectorError.taskCollection e))
        = Except.ok tc'
      rw [addDependencies_ok h1 h2]
      exact hok
    · rw [hch, hasTask_linkAll]

theorem registerToProjects_ok (opts : SelectorOptions)
    (hwf : ConfigWellFormed opts.projects)
    (hscript : ∀ p ∈ opts.projects,
      p.hasScript = true ∨ opts.ignoreMissingScript = true)
    (hto : ∀ t ∈ opts.toProjects, t ∈ opts.projects.map RushProject.packageName)
    (tc : TaskCollection) :
    ∃ tc', registerToProjects opts tc = .ok tc' ∧
      ∀ n, hasTask tc' n = true ↔
        (hasTask tc n = true ∨
          ∃ t ∈ opts.toProjects,
            Relation.ReflTransGen (projDepEdge opts.projects) t n) := by
  have hnbr : ∀ x, ∀ y ∈ localDepsOf opts.projects x,
      y ∈ opts.projects.map RushProject.packageName := localDepsOf_subset hwf
  have hcount : unvisitedCount (opts.projects.map RushProject.packageName) []
      < opts.projects.length + 1 := by
    have := unvisitedCount_nil_le (opts.projects.map RushProject.packageName)
    rw [List.length_map] at this
    omega
  cases hcc : collectClosure (localDepsOf opts.projects)
      (opts.projects.length + 1) opts.toProjects [] with
  | none =>
    exact absurd hcc
      (collectClosure_ne_none _ _ hnbr (opts.projects.length + 1)
        opts.toProjects [] hto hcount)
  | some deps =>
    have hmemiff := collectClosure_mem_iff (localDepsOf opts.projects) hcc
    have hdepsub : ∀ x ∈ deps, x ∈ opts.projects.map RushProject.packageName :=
      collectClosure_sound _ (· ∈ opts.projects.map RushProject.packageName)
        (fun x _ y hy => hnbr x y hy) _ _ _ _ hcc hto (by simp)
    have hcomplete := collectClosure_complete _ _ _ _ _ hcc
    obtain ⟨tc1, h1, hch1⟩ := registerTaskList_ok opts hscript deps tc
    have hch1' : ∀ n, hasTask tc1 n = true ↔
        (hasTask tc n = true ∨
          ∃ t ∈ opts.toProjects,
            Relation.ReflTransGen (projDepEdge opts.projects) t n) := by
      intro n
      rw [hch1]
      constructor
      · rintro (h | ⟨hd, -⟩)
        · exact Or.inl h
        · exact Or.inr ((hmemiff n).mp hd)
      · rintro (h | hr)
        · exact Or.inl h
        · have hd := (hmemiff n).mpr hr
          exact Or.inr ⟨hd, hdepsub n hd⟩
    unfold registerToProjects
    rw [hcc]
    dsimp only
    rw [h1]
    dsimp only
    by_cases hord : opts.ignoreDependencyOrder = true
    · rw [if_pos hord]
      exact ⟨tc1, rfl, hch1'⟩
    · rw [if_neg hord]
      obtain ⟨tc2, h2, hch2⟩ := addDependenciesList_ok
        (deps.map fun d => (d, localDepsOf opts.projects d)) tc1 (by
          intro it hit
          obtain ⟨d, hd, rfl⟩ := List.mem_map.mp hit
          refine ⟨?_, fun y hy => ?_⟩
          · exact (hch1 d).mpr (Or.inr ⟨hd, hdepsub d hd⟩)
          · have hyd : y ∈ deps := hcomplete.2 d hd (by simp) y hy
            exact (hch1 y).mpr (Or.inr ⟨hyd, hdepsub y hyd⟩))
      refine ⟨tc2, h2, fun n => ?_⟩
      rw [hch2]
      exact hch1' n

theorem registerFromProjects_ok (opts : SelectorOptions)
    (hscript : ∀ p ∈ opts.projects,
      p.hasScript = true ∨ opts.ignoreMissingScript = true)
    (hfrom : ∀ f ∈ opts.fromProjects,
      f ∈ opts.projects.map RushProject.packageName)
    (tc : TaskCollection) :
    ∃ tc', registerFromProjects opts tc = .ok tc' ∧
      ∀ n, hasTask tc' n = true ↔
        (hasTask tc n = true ∨
          ∃ f ∈ opts.fromProjects,
            Relation.ReflTransGen (projDependentEdge opts.projects) f n) := by
  have hnbr : ∀ x, ∀ y ∈ dependentProjectsOf opts.projects x,
      y ∈ opts.projects.map RushProject.packageName :=
    dependentProjectsOf_subset opts.projects
  have hcount : unvisitedCount (opts.projects.map RushProject.packageName) []
      < opts.projects.length + 1 := by
    have := unvisitedCount_nil_le (opts.projects.map RushProject.packageName)
    rw [List.length_map] at this
    omega
  cases hcc : collectClosure (dependentProjectsOf opts.projects)
      (opts.projects.length + 1) opts.fromProjects [] with
  | none =>
    exact absurd hcc
      (collectClosure_ne_none _ _ hnbr (opts.projects.length + 1)
        opts.fromProjects [] hfrom hcount)
  | some dependents =>
    have hmemiff := collectClosure_mem_iff (dependentProjectsOf opts.projects) hcc
    have hdepsub : ∀ x ∈ dependents,
        x ∈ opts.projects.map RushProject.packageName :=
      collectClosure_sound _ (· ∈ opts.projects.map RushProject.packageName)
        (fun x _ y hy => hnbr x y hy) _ _ _ _ hcc hfrom (by simp)
    obtain ⟨tc1, h1, hch1⟩ := registerTaskList_ok opts hscript dependents tc
    have hch1' : ∀ n, hasTask tc1 n = true ↔
        (hasTask tc n = true ∨
          ∃ f ∈ opts.fromProjects,
            Relation.ReflTransGen (projDependentEdge opts.projects) f n) := by
      intro n
      rw [hch1]
      constructor
      · rintro (h | ⟨hd, -⟩)
        · exact Or.inl h
        · exact Or.inr ((hmemiff n).mp hd)
      · rintro (h | hr)
        · exact Or.inl h
        · have hd := (hmemiff n).mpr hr
          exact Or.inr ⟨hd, hdepsub n hd⟩
    unfold registerFromProjects
    rw [hcc]
    dsimp only
    rw [h1]
    dsimp only
    by_cases hord : opts.ignoreDependencyOrder = true
    · rw [if_pos hord]
      exact ⟨tc1, rfl, hch1'⟩
    · rw [if_neg hord]
      obtain ⟨tc2, h2, hch2⟩ := addDependenciesList_ok
        (dependents.map fun d =>
          (d, (localDepsOf opts.projects d).filter (· ∈ dependents))) tc1 (by
          intro it hit
          obtain ⟨d, hd, rfl⟩ := List.mem_map.mp hit
          refine ⟨?_, fun y hy => ?_⟩
          · exact (hch1 d).mpr (Or.inr ⟨hd, hdepsub d hd⟩)
          · have hyd : y ∈ dependents := by
              have := List.mem_filter.mp hy
              simpa using this.2
            exact (hch1 y).mpr (Or.inr ⟨hyd, hdepsub y hyd⟩))
      refine ⟨tc2, h2, fun n => ?_⟩
      rw [hch2]
      exact hch1' n

theorem registerAll_ok (opts : SelectorOptions)
    (hwf : ConfigWellFormed opts.projects)
    (hscript : ∀ p ∈ opts.projects,
      p.hasScript = true ∨ opts.ignoreMissingScript = true)
    (tc : TaskCollection) :
    ∃ tc', registerAll opts tc = .ok tc' ∧
      ∀ n, hasTask tc' n = true ↔
        (hasTask tc n = true ∨
          n ∈ opts.projects.map RushProject.packageName) := by
  obtain ⟨tc1, h1, hch1⟩ := registerTaskList_ok opts hscript
    (opts.projects.map RushProject.packageName) tc
  have hch1' : ∀ n, hasTask tc1 n = true ↔
      (hasTask tc n = true ∨ n ∈ opts.projects.map RushProject.packageName) := by
    intro n
    rw [hch1]
    constructor
    · rintro (h | ⟨hm, -⟩)
      · exact Or.inl h
      · exact Or.inr hm
    · rintro (h | hm)
      · exact Or.inl h
      · exact Or.inr ⟨hm, hm⟩
  unfold registerAll
  rw [h1]
  dsimp only
  by_cases hord : opts.ignoreDependencyOrder = true
  · rw [if_pos hord]
    exact ⟨tc1, rfl, hch1'⟩
  · rw [if_neg hord]
    obtain ⟨tc2, h2, hch2⟩ := addDependenciesList_ok
      (opts.projects.map fun p => (p.packageName, p.localDependencyProjects))
      tc1 (by
        intro it hit
        obtain ⟨p, hp, rfl⟩ := List.mem_map.mp hit
        refine ⟨?_, fun y hy => ?_⟩
        · exact (hch1' p.packageName).mpr
            (Or.inr (List.mem_map_of_mem RushProject.packageName hp))
        · exact (hch1' y).mpr (Or.inr (hwf p hp y hy)))
    refine ⟨tc2, h2, fun n => ?_⟩
    rw [hch2]
    exact hch1' n

/-- C8: for a well-formed configuration whose selected script exists (or is
allowed to be missing), `registerTasks` succeeds and registers exactly the
union of (i) the transitive local-dependency closures of the `--to` projects
and (ii) the transitive dependent closures (over the reversed edge relation)
of the `--from` projects, or every configured project when both selections
are empty. -/
theorem registerTasks_selects (opts : SelectorOptions)
    (hwf : ConfigWellFormed opts.projects)
    (hto : ∀ t ∈ opts.toProjects, t ∈ opts.projects.map RushProject.packageName)
    (hfrom : ∀ f ∈ opts.fromProjects,
      f ∈ opts.projects.map RushProject.packageName)
    (hscript : ∀ p ∈ opts.projects,
      p.hasScript = true ∨ opts.ignoreMissingScript = true) :
    ∃ tc, registerTasks opts = .ok tc ∧
      ∀ n, hasTask tc n = true ↔
        (if opts.toProjects.isEmpty && opts.fromProjects.isEmpty
         then n ∈ opts.projects.map RushProject.packageName
         else
          (∃ t ∈ opts.toProjects,
            Relation.ReflTransGen (projDepEdge opts.projects) t n) ∨
          (∃ f ∈ opts.fromProjects,
            Relation.ReflTransGen (projDependentEdge opts.projects) f n)) := by
  unfold registerTasks
  by_cases hTo : opts.toProjects.isEmpty = true
  · rw [if_pos hTo]
    have hToNil : opts.toProjects = [] := List.isEmpty_iff.mp hTo
    dsimp only
    by_cases hFrom : opts.fromProjects.isEmpty = true
    · rw [if_pos hFrom]
      dsimp only
      obtain ⟨tc, h, hch⟩ := registerAll_ok opts hwf hscript []
      rw [if_pos (by rw [hTo, hFrom]; rfl)]
      refine ⟨tc, h, fun n => ?_⟩
      rw [if_pos (by rw [hTo, hFrom]; rfl), hch]
      constructor
      · rintro (h | hm)
        · exact absurd h (by simp [hasTask, findTask])
        · exact hm
      · exact Or.inr
    · rw [if_neg hFrom]
      obtain ⟨tc, h, hch⟩ := registerFromProjects_ok opts hscript hfrom []
      rw [h]
      dsimp only
      rw [if_neg (by intro hc; rw [Bool.and_eq_true] at hc; exact hFrom hc.2)]
      refine ⟨tc, rfl, fun n => ?_⟩
      rw [if_neg (by intro hc; rw [Bool.and_eq_true] at hc; exact hFrom hc.2), hch]
      constructor
      · rintro (h | hr)
        · exact absurd h (by simp [hasTask, findTask])
        · exact Or.inr hr
      · rintro (⟨t, ht, -⟩ | hr)
        · rw [hToNil] at ht; exact absurd ht (by simp)
        · exact Or.inr hr
  · rw [if_neg hTo]
    obtain ⟨tc1, h1, hch1⟩ := registerToProjects_ok opts hwf hscript hto []
    rw [h1]
    dsimp only
    by_cases hFrom : opts.fromProjects.isEmpty = true
    · rw [if_pos hFrom]
      have hFromNil : opts.fromProjects = [] := List.isEmpty_iff.mp hFrom
      dsimp only
      rw [if_neg (by intro hc; rw [Bool.and_eq_true] at hc; exact hTo hc.1)]
      refine ⟨tc1, rfl, fun n => ?_⟩
      rw [if_neg (by intro hc; rw [Bool.and_eq_true] at hc; exact hTo hc.1), hch1]
      constructor
      · rintro (h | hr)
        · exact absurd h (by simp [hasTask, findTask])
        · exact Or.inl hr
      · rintro (hr | ⟨f, hf, -⟩)
        · exact Or.inr hr
        · rw [hFromNil] at hf; exact absurd hf (by simp)
    · rw [if_neg hFrom]
      obtain ⟨tc2, h2, hch2⟩ := registerFromProjects_ok opts hscript hfrom tc1
      rw [h2]
      dsimp only
      rw [if_neg (by intro hc; rw [Bool.and_eq_true] at hc; exact hTo hc.1)]
      refine ⟨tc2, rfl, fun n => ?_⟩
      rw [if_neg (by intro hc; rw [Bool.and_eq_true] at hc; exact hTo hc.1), hch2, hch1]
      constructor
      · rintro ((h | hr) | hr)
        · exact absurd h (by simp [hasTask, findTask])
        · exact Or.inl hr
        · exact Or.inr hr
      · rintro (hr | hr)
        · exact Or.inl (Or.inr hr)
        · exact Or.inr hr

/-- Witness for C8 at the sample graph (`a ← b ← c`, isolated `d`) with
`--to c --from a`: both closures are collected, registration succeeds, and
the registered set is characterized by reachability. -/
theorem registerTasks_selects_witness :
    (ConfigWellFormed sampleProjects ∧
      (registerTasks sampleBothOptions).isOk = true) ∧
    (∃ tc, registerTasks sampleBothOptions = .ok tc ∧
      ∀ n, hasTask tc n = true ↔
        (if sampleBothOptions.toProjects.isEmpty &&
            sampleBothOptions.fromProjects.isEmpty
         then n ∈ sampleBothOptions.projects.map RushProject.packageName
         else
          (∃ t ∈ sampleBothOptions.toProjects,
            Relation.ReflTransGen (projDepEdge sampleBothOptions.projects) t n) ∨
          (∃ f ∈ sampleBothOptions.fromProjects,
            Relation.ReflTransGen
              (projDependentEdge sampleBothOptions.projects) f n))) :=
  ⟨⟨by decide, by decide⟩,
    registerTasks_selects sampleBothOptions (by decide) (by decide)
      (by decide) (by decide)⟩

end RushStack
